import Mathlib

set_option maxRecDepth 16000

/-!
Verification of the sudoku repository's engine layer.

The repository contains two variants of the same application:
`src/sudoku/__main__.py` (class `Board`, engine guards inside the engine
methods) and `src/nandoku/__main__.py` (class `Game`, guards living in the
UI layer; the engine methods themselves are unguarded and `Cell.set_value`
and `Cell.toggle_candidate` assert `not self.is_fixed`).

Because Python cells are mutable heap objects and `hint` installs the
solution grid's own cell object into the live grid (aliasing), the engine
state is embedded with an explicit heap: cell ids are naturals, `grid` and
`solution` map slot indexes (0..80, index = row * 9 + col) to cell ids, and
`heap` maps ids to cell data.  `deepcopy` / `clone` followed by a later
installation is modelled by allocating a fresh id at installation time,
which is observationally identical because a snapshot sitting in the
history list is referenced by nothing else.

Machine integers do not occur; Python ints are `Int`/`Nat`.  Python's `%`
on the possibly negative row/col deltas agrees with `Int.emod` for the
positive modulus 9.  Characters are taken from the ASCII digit range, per
the PuzzleSource contract (spec section 6: strings of 81 ASCII digits).
-/

/-- One board position: coordinates, optional value 1..9, the given flag
(`is_fixed` in the source), and the pencil-mark candidate set.  Mirrors
class `Cell` of both source files. -/
structure Cell where
  row : Nat
  col : Nat
  value : Option Nat
  is_fixed : Bool
  candidates : Finset Nat
deriving DecidableEq

instance : Inhabited Cell := ⟨⟨0, 0, none, false, ∅⟩⟩

/-- Python `Cell.__eq__`: same value and same coordinates. -/
def cellEq (a b : Cell) : Bool :=
  a.value == b.value && (a.row == b.row && a.col == b.col)

/-- Python `Cell.is_sharing_subgrid`. -/
def Cell.is_sharing_subgrid (a b : Cell) : Bool :=
  !cellEq a b && (a.row / 3 == b.row / 3 && a.col / 3 == b.col / 3)

/-- Python `Cell.is_neighbour`: distinct (under `__eq__`) and sharing a
row, column or 3x3 subgrid. -/
def Cell.is_neighbour (a b : Cell) : Bool :=
  !cellEq a b && (a.row == b.row || a.col == b.col || a.is_sharing_subgrid b)

/-- Python `Cell.set_value` body (after its `assert not self.is_fixed`,
which the two engines discharge differently): store the value and clear
the candidates. -/
def Cell.set_value (c : Cell) (v : Option Nat) : Cell :=
  { c with value := v, candidates := ∅ }

/-- Python `Cell.toggle_candidate` body: blank the value and flip
membership of the digit in the candidate set. -/
def Cell.toggle_candidate (c : Cell) (d : Nat) : Cell :=
  { c with value := none,
           candidates :=
             if d ∈ c.candidates then c.candidates.erase d else insert d c.candidates }

/-- Python `int(ch)` restricted to the ASCII digits the PuzzleSource
contract supplies; any other character raises `ValueError`. -/
def pyInt (ch : Char) : Option Nat :=
  if ch.isDigit then some (ch.toNat - 48) else none

/-- One element of the list comprehension inside `Grid.from_str`:
`Cell(row=i // 9, col=i % 9, value=value if (value := int(ch)) else None,
is_fixed=bool(value))`. -/
def parseCell (i : Nat) (ch : Char) : Except String Cell :=
  match pyInt ch with
  | none => Except.error "ValueError"
  | some v => Except.ok ⟨i / 9, i % 9, if v = 0 then none else some v, v != 0, ∅⟩

/-- The list comprehension of `Grid.from_str`: left to right, the first
failing character aborts with its error. -/
def parseCells : List (Nat × Char) → Except String (List Cell)
  | [] => Except.ok []
  | p :: rest =>
      match parseCell p.1 p.2 with
      | Except.error e => Except.error e
      | Except.ok c =>
          match parseCells rest with
          | Except.error e => Except.error e
          | Except.ok cs => Except.ok (c :: cs)

/-- Python `Grid.from_str` followed by `Grid.__init__`: parse every
character (a non-digit raises), then assert that there are exactly 81
cells whose stored coordinates match their position. -/
def Grid.from_str (s : String) : Except String (List Cell) :=
  match parseCells s.toList.enum with
  | Except.error e => Except.error e
  | Except.ok cells =>
      if cells.length = 81 ∧ ∀ p ∈ cells.enum, p.2.row = p.1 / 9 ∧ p.2.col = p.1 % 9 then
        Except.ok cells
      else
        Except.error "AssertionError"

/-- Projection of a cell to the components Python's `set` of cells keys on
(`__hash__` uses the coordinates, `__eq__` compares value and
coordinates). -/
def proj (c : Cell) : Nat × Nat × Option Nat :=
  (c.row, c.col, c.value)

/-- Python `Grid.invalid_cells`: the double loop, including the
`cell in invalid_cells` skip of already collected cells. -/
def Grid.invalid_cells (cells : List Cell) : Finset (Nat × Nat × Option Nat) :=
  cells.foldl
    (fun acc cell =>
      if cell.value = none ∨ proj cell ∈ acc then acc
      else
        cells.foldl
          (fun acc2 other =>
            if cell.is_neighbour other ∧ cell.value = other.value then
              insert (proj other) (insert (proj cell) acc2)
            else acc2)
          acc)
    ∅

/-- Engine state shared by both variants: a heap of cells addressed by
ids, the live grid and the solution grid as slot-to-id maps, the selected
cell (an id, mirroring the Python object reference), and the history
stack of snapshots (most recent last, as in the Python list). -/
structure EState where
  heap : Nat → Cell
  nextId : Nat
  grid : Nat → Nat
  solution : Nat → Nat
  selected : Nat
  history : List Cell

/-- Python `is_completed`: `self.grid == self.solution`, i.e. list
equality of the 81 cells under `Cell.__eq__`. -/
def EState.is_completed (st : EState) : Bool :=
  (List.range 81).all fun i => cellEq (st.heap (st.grid i)) (st.heap (st.solution i))

namespace Board

/-- Python `Board.move`: no-op when completed, else select the grid cell
at the coordinates reduced modulo 9. -/
def move (st : EState) (r c : Int) : EState :=
  if st.is_completed then st
  else { st with selected := st.grid ((r % 9).toNat * 9 + (c % 9).toNat) }

/-- Python `Board.move_up`. -/
def move_up (st : EState) : EState :=
  move st ((st.heap st.selected).row - 1) (st.heap st.selected).col

/-- Python `Board.move_down`. -/
def move_down (st : EState) : EState :=
  move st ((st.heap st.selected).row + 1) (st.heap st.selected).col

/-- Python `Board.move_left`. -/
def move_left (st : EState) : EState :=
  move st (st.heap st.selected).row ((st.heap st.selected).col - 1)

/-- Python `Board.move_right`. -/
def move_right (st : EState) : EState :=
  move st (st.heap st.selected).row ((st.heap st.selected).col + 1)

/-- Python `Board.set_value`: no-op when the selected cell is fixed or the
puzzle is completed; otherwise push a deepcopy snapshot and mutate the
selected cell in place. -/
def set_value (st : EState) (v : Option Nat) : EState :=
  if (st.heap st.selected).is_fixed ∨ st.is_completed then st
  else
    { st with
      history := st.history ++ [st.heap st.selected],
      heap := fun j => if j = st.selected then (st.heap st.selected).set_value v else st.heap j }

/-- Python `Board.toggle_candidate`: same guard and snapshot as
`set_value`. -/
def toggle_candidate (st : EState) (d : Nat) : EState :=
  if (st.heap st.selected).is_fixed ∨ st.is_completed then st
  else
    { st with
      history := st.history ++ [st.heap st.selected],
      heap := fun j =>
        if j = st.selected then (st.heap st.selected).toggle_candidate d else st.heap j }

/-- Python `Board.undo`: no-op when history is empty or the puzzle is
completed; otherwise pop the last snapshot, install it into the grid at
its own coordinates (a fresh object, since the snapshot was a deepcopy)
and select it. -/
def undo (st : EState) : EState :=
  if st.history = [] ∨ st.is_completed then st
  else
    match st.history.getLast? with
    | none => st
    | some cell =>
        { heap := fun j => if j = st.nextId then cell else st.heap j
          nextId := st.nextId + 1
          grid := fun i => if i = cell.row * 9 + cell.col then st.nextId else st.grid i
          solution := st.solution
          selected := st.nextId
          history := st.history.dropLast }

/-- Python `Board.hint`: no-op when the selected cell is fixed or the
puzzle is completed; otherwise install the solution grid's own cell
object into the grid slot of the selected coordinates, select it, and
drop every history snapshot carrying those coordinates. -/
def hint (st : EState) : EState :=
  if (st.heap st.selected).is_fixed ∨ st.is_completed then st
  else
    { st with
      selected := st.solution ((st.heap st.selected).row * 9 + (st.heap st.selected).col)
      grid := fun i =>
        if i = (st.heap st.selected).row * 9 + (st.heap st.selected).col then
          st.solution ((st.heap st.selected).row * 9 + (st.heap st.selected).col)
        else st.grid i
      history := st.history.filter fun c =>
        !(c.row == (st.heap st.selected).row && c.col == (st.heap st.selected).col) }

/-- Python `Board.start` given the strings the PuzzleSource returned:
parse the puzzle and the solution, clear the history and select slot
(0, 0).  Parsed cells receive the ids 0..80 (grid) and 81..161
(solution). -/
def start (pz sol : String) : Except String EState :=
  match Grid.from_str pz with
  | Except.error e => Except.error e
  | Except.ok g =>
      match Grid.from_str sol with
      | Except.error e => Except.error e
      | Except.ok s =>
          Except.ok
            { heap := fun n =>
                if n < 81 then g.getD n default
                else if n < 162 then s.getD (n - 81) default
                else default
              nextId := 162
              grid := fun i => i
              solution := fun i => i + 81
              selected := 0
              history := [] }

end Board

namespace Game

/-- Python `Game.move_up` (nandoku): unguarded, wraps only the changed
axis. -/
def move_up (st : EState) : EState :=
  { st with
    selected := st.grid ((((st.heap st.selected).row - 1 : Int) % 9).toNat * 9
      + (st.heap st.selected).col) }

/-- Python `Game.move_down` (nandoku). -/
def move_down (st : EState) : EState :=
  { st with
    selected := st.grid ((((st.heap st.selected).row + 1 : Int) % 9).toNat * 9
      + (st.heap st.selected).col) }

/-- Python `Game.move_left` (nandoku). -/
def move_left (st : EState) : EState :=
  { st with
    selected := st.grid ((st.heap st.selected).row * 9
      + (((st.heap st.selected).col - 1 : Int) % 9).toNat) }

/-- Python `Game.move_right` (nandoku). -/
def move_right (st : EState) : EState :=
  { st with
    selected := st.grid ((st.heap st.selected).row * 9
      + (((st.heap st.selected).col + 1 : Int) % 9).toNat) }

/-- Python `Game.set_value` (nandoku): unguarded; appends a clone of the
selected cell, then calls `Cell.set_value`, whose
`assert not self.is_fixed` raises on a given cell after the append has
already happened.  The boolean records whether the assertion fired. -/
def set_value (st : EState) (v : Option Nat) : EState × Bool :=
  let st1 := { st with history := st.history ++ [st.heap st.selected] }
  if (st.heap st.selected).is_fixed then (st1, true)
  else
    ({ st1 with
       heap := fun j =>
         if j = st.selected then (st.heap st.selected).set_value v else st.heap j },
     false)

/-- Python `Game.toggle_candidate` (nandoku): same shape as
`Game.set_value`. -/
def toggle_candidate (st : EState) (d : Nat) : EState × Bool :=
  let st1 := { st with history := st.history ++ [st.heap st.selected] }
  if (st.heap st.selected).is_fixed then (st1, true)
  else
    ({ st1 with
       heap := fun j =>
         if j = st.selected then (st.heap st.selected).toggle_candidate d else st.heap j },
     false)

/-- Python `Game.undo` (nandoku): guarded only on empty history; a
completed puzzle is still undone. -/
def undo (st : EState) : EState :=
  if st.history = [] then st
  else
    match st.history.getLast? with
    | none => st
    | some cell =>
        { heap := fun j => if j = st.nextId then cell else st.heap j
          nextId := st.nextId + 1
          grid := fun i => if i = cell.row * 9 + cell.col then st.nextId else st.grid i
          solution := st.solution
          selected := st.nextId
          history := st.history.dropLast }

/-- Python `Game.hint` (nandoku): entirely unguarded. -/
def hint (st : EState) : EState :=
  { st with
    selected := st.solution ((st.heap st.selected).row * 9 + (st.heap st.selected).col)
    grid := fun i =>
      if i = (st.heap st.selected).row * 9 + (st.heap st.selected).col then
        st.solution ((st.heap st.selected).row * 9 + (st.heap st.selected).col)
      else st.grid i
    history := st.history.filter fun c =>
      !(c.row == (st.heap st.selected).row && c.col == (st.heap st.selected).col) }

end Game

/-- The engine operations a presentation layer can issue against the
`Board` engine after `start`. -/
inductive Op where
  | up
  | down
  | left
  | right
  | mv (r c : Int)
  | setv (v : Option Nat)
  | toggle (d : Nat)
  | undo
  | hint

/-- Dispatch one `Board` operation. -/
def applyOp (st : EState) : Op → EState
  | Op.up => Board.move_up st
  | Op.down => Board.move_down st
  | Op.left => Board.move_left st
  | Op.right => Board.move_right st
  | Op.mv r c => Board.move st r c
  | Op.setv v => Board.set_value st v
  | Op.toggle d => Board.toggle_candidate st d
  | Op.undo => Board.undo st
  | Op.hint => Board.hint st

/-- Run a sequence of `Board` operations. -/
def run (st : EState) (ops : List Op) : EState :=
  ops.foldl applyOp st

/-- Well-formedness of reachable engine states: grid and solution slots
hold cells carrying their own coordinates, history snapshots carry
in-range coordinates, the selection is one of the current grid entries,
every live id is below the allocation bound, grid slots and solution
slots are injective, and a grid slot aliases no solution cell other than
its own. -/
def WF (st : EState) : Prop :=
  (∀ i, i < 81 → (st.heap (st.grid i)).row = i / 9 ∧ (st.heap (st.grid i)).col = i % 9) ∧
  (∀ i, i < 81 →
    (st.heap (st.solution i)).row = i / 9 ∧ (st.heap (st.solution i)).col = i % 9) ∧
  (∀ c ∈ st.history, c.row < 9 ∧ c.col < 9) ∧
  (∃ i, i < 81 ∧ st.selected = st.grid i) ∧
  (∀ i, i < 81 → st.grid i < st.nextId ∧ st.solution i < st.nextId) ∧
  (∀ i, i < 81 → ∀ j, j < 81 → i ≠ j → st.grid i ≠ st.grid j) ∧
  (∀ i, i < 81 → ∀ j, j < 81 → i ≠ j → st.solution i ≠ st.solution j) ∧
  (∀ i, i < 81 → st.grid i = st.solution i ∨ ∀ j, j < 81 → st.grid i ≠ st.solution j)

instance (st : EState) : Decidable (WF st) := by
  unfold WF
  infer_instance

/-- The cell data visible in grid slot `i`. -/
def gdata (st : EState) (i : Nat) : Cell :=
  st.heap (st.grid i)

/-- The cell data visible in solution slot `i`. -/
def sdata (st : EState) (i : Nat) : Cell :=
  st.heap (st.solution i)

/-- Iterated `Board.undo`. -/
def undoIter : Nat → EState → EState
  | 0, st => st
  | k + 1, st => undoIter k (Board.undo st)

/-- A sequence of navigation and successful edit operations on the
`Board` engine: exactly `n` `set_value`/`toggle_candidate` calls, each on
a non-given selected cell of a non-completed board, no undo/hint/start,
and completion never reached (also not by the edit itself). -/
inductive EditSeq : EState → Nat → EState → Prop where
  | nil (st : EState) : EditSeq st 0 st
  | move (st0 : EState) (n : Nat) (st : EState) (a b : Int) :
      EditSeq st0 n st → EditSeq st0 n (Board.move st a b)
  | setv (st0 : EState) (n : Nat) (st : EState) (v : Option Nat) :
      EditSeq st0 n st →
      (st.heap st.selected).is_fixed = false →
      st.is_completed = false →
      (Board.set_value st v).is_completed = false →
      EditSeq st0 (n + 1) (Board.set_value st v)
  | toggle (st0 : EState) (n : Nat) (st : EState) (d : Nat) :
      EditSeq st0 n st →
      (st.heap st.selected).is_fixed = false →
      st.is_completed = false →
      (Board.toggle_candidate st d).is_completed = false →
      EditSeq st0 (n + 1) (Board.toggle_candidate st d)

/-- Observable agreement of two engine states: same cell data in every
grid slot, same solution data, same history.  Heap ids may differ. -/
def ESim (s t : EState) : Prop :=
  (∀ i, i < 81 → gdata s i = gdata t i) ∧
  (∀ i, i < 81 → sdata s i = sdata t i) ∧
  s.history = t.history

/-- A heap laid out like a fresh `Board.start` result: grid cells at ids
0..80, solution cells (all given) at ids 81..161. -/
def baseHeap (gval : Nat → Option Nat) (gfix : Nat → Bool) (sval : Nat → Option Nat) :
    Nat → Cell :=
  fun n =>
    if n < 81 then ⟨n / 9, n % 9, gval n, gfix n, ∅⟩
    else if n < 162 then ⟨(n - 81) / 9, (n - 81) % 9, sval (n - 81), true, ∅⟩
    else default

/-- A concrete engine state in the fresh-start id layout. -/
def mkState (gval : Nat → Option Nat) (gfix : Nat → Bool) (sval : Nat → Option Nat)
    (hist : List Cell) (sel : Nat) : EState :=
  { heap := baseHeap gval gfix sval
    nextId := 162
    grid := fun i => i
    solution := fun i => i + 81
    selected := sel
    history := hist }

/-- A concrete 81-character puzzle string. -/
def w7s : String :=
  "004300209005009001070060043006002087190007400050083000600000105003508690042910300"

/-- A concrete 81-character fully-given solution string. -/
def w4sol : String :=
  "123456789123456789123456789123456789123456789123456789123456789123456789123456789"

/-- Blank playing state: empty grid, all-1 solution, nothing selected
beyond slot 0, empty history. -/
def estPlay : EState :=
  mkState (fun _ => none) (fun _ => false) (fun _ => some 1) [] 0

/-- Completed state: grid values coincide with the all-1 solution. -/
def estDone : EState :=
  mkState (fun _ => some 1) (fun _ => false) (fun _ => some 1) [] 0

/-- State whose selected cell (slot 0) is a given cell holding 5. -/
def estFix : EState :=
  mkState (fun n => if n = 0 then some 5 else none) (fun n => n == 0) (fun _ => some 1) [] 0

/-- Non-completed state that starts with one history snapshot recording a
5 at coordinates (0, 0). -/
def estHist : EState :=
  mkState (fun _ => none) (fun _ => false) (fun _ => some 1) [⟨0, 0, some 5, false, ∅⟩] 0

/-- Completed state with a leftover history snapshot recording a 5 at
coordinates (0, 0). -/
def estDoneHist : EState :=
  mkState (fun _ => some 1) (fun _ => false) (fun _ => some 1) [⟨0, 0, some 5, false, ∅⟩] 0

/-! ## General lemmas about the engine -/

/-- Any state in the fresh-start id layout is well-formed, provided its
history snapshots carry in-range coordinates and its selection is a grid
id. -/
theorem WF_mkState (gval : Nat → Option Nat) (gfix : Nat → Bool) (sval : Nat → Option Nat)
    (hist : List Cell) (sel : Nat)
    (hh : ∀ c ∈ hist, c.row < 9 ∧ c.col < 9) (hsel : sel < 81) :
    WF (mkState gval gfix sval hist sel) := by
  refine ⟨?_, ?_, hh, ⟨sel, hsel, rfl⟩, ?_, ?_, ?_, ?_⟩
  · intro i hi
    simp only [mkState, baseHeap]
    rw [if_pos hi]
    exact ⟨rfl, rfl⟩
  · intro i hi
    have h1 : ¬(i + 81 < 81) := by omega
    have h2 : i + 81 < 162 := by omega
    simp only [mkState, baseHeap]
    rw [if_neg h1, if_pos h2]
    simp
  · intro i hi
    simp only [mkState]
    omega
  · intro i hi j hj hne
    simp only [mkState]
    omega
  · intro i hi j hj hne
    simp only [mkState]
    omega
  · intro i hi
    right
    intro j hj
    simp only [mkState]
    omega

/-- Completion compares exactly the 81 slot values: under well-formedness
the coordinate components of `Cell.__eq__` always agree, so `is_completed`
reduces to value-by-value agreement of grid and solution. -/
theorem is_completed_iff_values (st : EState) (hwf : WF st) :
    st.is_completed = true ↔ ∀ i, i < 81 → (gdata st i).value = (sdata st i).value := by
  obtain ⟨hg, hs, -⟩ := hwf
  unfold EState.is_completed
  rw [List.all_eq_true]
  constructor
  · intro h i hi
    have hcell := h i (List.mem_range.mpr hi)
    simp only [cellEq, Bool.and_eq_true, beq_iff_eq] at hcell
    exact hcell.1
  · intro h i hmem
    have hi := List.mem_range.mp hmem
    have hrow : (st.heap (st.grid i)).row = (st.heap (st.solution i)).row := by
      rw [(hg i hi).1, (hs i hi).1]
    have hcol : (st.heap (st.grid i)).col = (st.heap (st.solution i)).col := by
      rw [(hg i hi).2, (hs i hi).2]
    simp only [cellEq, Bool.and_eq_true, beq_iff_eq]
    exact ⟨h i hi, hrow, hcol⟩

/-- Python `n % 9` on an in-range coordinate. -/
theorem emod9_self (n : Nat) (h : n < 9) : (((n : Int)) % 9).toNat = n := by
  interval_cases n <;> decide

/-- Python `(n - 1) % 9`: wraparound one step towards zero. -/
theorem emod9_sub_one (n : Nat) (h : n < 9) :
    (((n : Int) - 1) % 9).toNat = if n = 0 then 8 else n - 1 := by
  interval_cases n <;> decide

/-- Python `(n + 1) % 9`: wraparound one step away from zero. -/
theorem emod9_add_one (n : Nat) (h : n < 9) :
    (((n : Int) + 1) % 9).toNat = if n = 8 then 0 else n + 1 := by
  interval_cases n <;> decide

/-- The selected cell of a well-formed state carries in-range
coordinates. -/
theorem sel_coords_lt (st : EState) (hwf : WF st) :
    (st.heap st.selected).row < 9 ∧ (st.heap st.selected).col < 9 := by
  obtain ⟨hg, -, -, ⟨i, hi, hsel⟩, -⟩ := hwf
  rw [hsel, (hg i hi).1, (hg i hi).2]
  omega

/-- The grid cell stored at slot `r * 9 + c` of a well-formed state
carries coordinates `(r, c)`. -/
theorem grid_coords (st : EState) (hwf : WF st) (r c : Nat) (hr : r < 9) (hc : c < 9) :
    (st.heap (st.grid (r * 9 + c))).row = r ∧ (st.heap (st.grid (r * 9 + c))).col = c := by
  obtain ⟨h1, h2⟩ := hwf.1 (r * 9 + c) (by omega)
  rw [h1, h2]
  omega

/-- The selection of a well-formed state is the grid entry of its own
coordinates. -/
theorem sel_slot (st : EState) (hwf : WF st) :
    st.selected = st.grid ((st.heap st.selected).row * 9 + (st.heap st.selected).col) ∧
    (st.heap st.selected).row * 9 + (st.heap st.selected).col < 81 := by
  obtain ⟨hg, -, -, ⟨i, hi, hsel⟩, -⟩ := hwf
  have hr : (st.heap st.selected).row = i / 9 := by
    rw [hsel]
    exact (hg i hi).1
  have hc : (st.heap st.selected).col = i % 9 := by
    rw [hsel]
    exact (hg i hi).2
  constructor
  · rw [hr, hc, hsel]
    have he : i / 9 * 9 + i % 9 = i := by omega
    rw [he]
  · rw [hr, hc]
    omega

/-- `parseCell` on an ASCII digit. -/
theorem parseCell_digit (i : Nat) (ch : Char) (h : ch.isDigit = true) :
    parseCell i ch = Except.ok
      ⟨i / 9, i % 9, if ch.toNat - 48 = 0 then none else some (ch.toNat - 48),
       ch.toNat - 48 != 0, ∅⟩ := by
  simp [parseCell, pyInt, h]

/-- `parseCell` on a non-digit raises. -/
theorem parseCell_not_digit (i : Nat) (ch : Char) (h : ch.isDigit = false) :
    parseCell i ch = Except.error "ValueError" := by
  simp [parseCell, pyInt, h]

/-- Success of the parsing comprehension is pointwise success. -/
theorem parseCells_ok_iff (l : List (Nat × Char)) (gs : List Cell) :
    parseCells l = Except.ok gs ↔
      List.Forall₂ (fun p c => parseCell p.1 p.2 = Except.ok c) l gs := by
  induction l generalizing gs with
  | nil =>
      simp only [parseCells, Except.ok.injEq]
      constructor
      · rintro rfl
        exact List.Forall₂.nil
      · intro h
        cases h
        rfl
  | cons p rest ih =>
      simp only [parseCells]
      cases hp : parseCell p.1 p.2 with
      | error e =>
          constructor
          · intro h
            cases h
          · intro h
            cases h with
            | cons h1 h2 => rw [hp] at h1; cases h1
      | ok c =>
          cases hr : parseCells rest with
          | error e =>
              constructor
              · intro h
                cases h
              · intro h
                cases h with
                | cons h1 h2 =>
                    have := (ih _).mpr h2
                    rw [this] at hr
                    cases hr
          | ok cs =>
              constructor
              · intro h
                injection h with h'
                subst h'
                exact List.Forall₂.cons hp ((ih cs).mp hr)
              · intro h
                cases h with
                | cons h1 h2 =>
                    rw [hp] at h1
                    injection h1 with h1'
                    subst h1'
                    have := (ih _).mpr h2
                    rw [this] at hr
                    injection hr with hr'
                    subst hr'
                    rfl

/-- The parsing comprehension succeeds exactly when every character is a
digit. -/
theorem parseCells_ok_exists (l : List (Nat × Char)) :
    (∃ gs, parseCells l = Except.ok gs) ↔ ∀ p ∈ l, (p.2).isDigit = true := by
  induction l with
  | nil =>
      simp [parseCells]
  | cons p rest ih =>
      simp only [parseCells, List.mem_cons]
      cases hd : (p.2).isDigit with
      | false =>
          rw [parseCell_not_digit _ _ hd]
          constructor
          · rintro ⟨gs, h⟩
            cases h
          · intro h
            have := h p (Or.inl rfl)
            rw [hd] at this
            cases this
      | true =>
          rw [parseCell_digit _ _ hd]
          cases hr : parseCells rest with
          | error e =>
              constructor
              · rintro ⟨gs, h⟩
                cases h
              · intro h
                obtain ⟨gs, hgs⟩ := ih.mpr fun q hq => h q (Or.inr hq)
                rw [hgs] at hr
                cases hr
          | ok cs =>
              constructor
              · intro _
                rintro x (rfl | hx)
                · exact hd
                · exact ih.mp ⟨cs, hr⟩ x hx
              · intro _
                exact ⟨_, rfl⟩

/-- The second component of an enumerated pair is a member of the
underlying list. -/
theorem snd_mem_of_mem_enum {α : Type} {l : List α} {p : Nat × α} (h : p ∈ l.enum) :
    p.2 ∈ l := by
  obtain ⟨n, rfl⟩ := List.mem_iff_get.mp h
  rw [List.get_enum]
  exact List.get_mem l _ _

/-- Pointwise description of a successful parse of an enumerated
character list. -/
theorem parseCells_get (l : List Char) (cells : List Cell)
    (hp : parseCells l.enum = Except.ok cells) :
    l.length = cells.length ∧
    ∀ i, i < cells.length →
      ∃ v, pyInt (l.getD i '0') = some v ∧
        cells.getD i default = ⟨i / 9, i % 9, if v = 0 then none else some v, v != 0, ∅⟩ := by
  have hf2 := (parseCells_ok_iff _ _).mp hp
  have hlen : l.length = cells.length := by
    have := hf2.length_eq
    rwa [List.enum_length] at this
  refine ⟨hlen, ?_⟩
  intro i hi
  have h1 : i < l.enum.length := by
    rw [List.enum_length]
    omega
  have hR := (List.forall₂_iff_get.mp hf2).2 i h1 hi
  rw [List.get_enum] at hR
  cases hpy : pyInt (l.get (Fin.cast List.enum_length ⟨i, h1⟩)) with
  | none =>
      unfold parseCell at hR
      rw [hpy] at hR
      cases hR
  | some v =>
      unfold parseCell at hR
      rw [hpy] at hR
      injection hR with hcell
      have hgetD : l.getD i '0' = l.get (Fin.cast List.enum_length ⟨i, h1⟩) := by
        rw [List.getD_eq_getElem l '0' (by omega)]
        rfl
      have hgetDc : cells.getD i default = cells.get ⟨i, hi⟩ := by
        rw [List.getD_eq_getElem cells default hi]
        rfl
      exact ⟨v, by rw [hgetD]; exact hpy, by rw [hgetDc, ← hcell]⟩

/-- Boolean equality under a lawful instance is symmetric. -/
theorem beq_symm_lawful {α : Type} [BEq α] [LawfulBEq α] (a b : α) : (a == b) = (b == a) := by
  rw [Bool.eq_iff_iff]
  simp only [beq_iff_eq]
  exact ⟨Eq.symm, Eq.symm⟩

/-- `Cell.__eq__` is symmetric. -/
theorem cellEq_symm (a b : Cell) : cellEq a b = cellEq b a := by
  unfold cellEq
  rw [beq_symm_lawful a.value b.value, beq_symm_lawful a.row b.row, beq_symm_lawful a.col b.col]

/-- The neighbour relation is symmetric. -/
theorem is_neighbour_symm (a b : Cell) : a.is_neighbour b = b.is_neighbour a := by
  unfold Cell.is_neighbour Cell.is_sharing_subgrid
  rw [cellEq_symm a b, beq_symm_lawful a.row b.row, beq_symm_lawful a.col b.col,
    beq_symm_lawful (a.row / 3) (b.row / 3), beq_symm_lawful (a.col / 3) (b.col / 3)]

/-- The inner comparison loop of `invalid_cells` only grows the set. -/
theorem inner_loop_subset (c : Cell) (l : List Cell) (acc : Finset (Nat × Nat × Option Nat)) :
    acc ⊆ l.foldl
      (fun acc2 other =>
        if c.is_neighbour other ∧ c.value = other.value then
          insert (proj other) (insert (proj c) acc2)
        else acc2)
      acc := by
  induction l generalizing acc with
  | nil => exact Finset.Subset.refl acc
  | cons o t ih =>
      refine Finset.Subset.trans ?_ (ih _)
      dsimp only
      by_cases hcond : c.is_neighbour o = true ∧ c.value = o.value
      · rw [if_pos hcond]
        exact Finset.Subset.trans (Finset.subset_insert _ _) (Finset.subset_insert _ _)
      · rw [if_neg hcond]

/-- Everything the inner loop adds is the outer cell or a conflicting
neighbour of it. -/
theorem inner_loop_sound (c : Cell) (l : List Cell) (acc : Finset (Nat × Nat × Option Nat))
    (x : Nat × Nat × Option Nat) (hx : x ∈ l.foldl
      (fun acc2 other =>
        if c.is_neighbour other ∧ c.value = other.value then
          insert (proj other) (insert (proj c) acc2)
        else acc2)
      acc) :
    x ∈ acc ∨ ∃ o ∈ l, (c.is_neighbour o = true ∧ c.value = o.value) ∧
      (x = proj c ∨ x = proj o) := by
  induction l generalizing acc with
  | nil => exact Or.inl hx
  | cons o t ih =>
      rcases ih _ hx with h | ⟨o', ho', hcnd, hor⟩
      · dsimp only at h
        by_cases hcond : c.is_neighbour o = true ∧ c.value = o.value
        · rw [if_pos hcond] at h
          rcases Finset.mem_insert.mp h with h1 | h1
          · exact Or.inr ⟨o, List.mem_cons_self o t, hcond, Or.inr h1⟩
          · rcases Finset.mem_insert.mp h1 with h2 | h2
            · exact Or.inr ⟨o, List.mem_cons_self o t, hcond, Or.inl h2⟩
            · exact Or.inl h2
        · rw [if_neg hcond] at h
          exact Or.inl h
      · exact Or.inr ⟨o', List.mem_cons_of_mem o ho', hcnd, hor⟩

/-- If the inner loop meets a conflicting neighbour, the outer cell's
projection lands in the set. -/
theorem inner_loop_complete (c : Cell) (l : List Cell) (acc : Finset (Nat × Nat × Option Nat))
    (o : Cell) (ho : o ∈ l) (hn : c.is_neighbour o = true) (hv : c.value = o.value) :
    proj c ∈ l.foldl
      (fun acc2 other =>
        if c.is_neighbour other ∧ c.value = other.value then
          insert (proj other) (insert (proj c) acc2)
        else acc2)
      acc := by
  induction l generalizing acc with
  | nil => cases ho
  | cons o' t ih =>
      rcases List.mem_cons.mp ho with rfl | hmem
      · refine Finset.mem_of_subset (inner_loop_subset c t _) ?_
        dsimp only
        rw [if_pos ⟨hn, hv⟩]
        exact Finset.mem_insert.mpr (Or.inr (Finset.mem_insert_self _ _))
      · exact ih _ hmem

/-- The outer loop of `invalid_cells` only grows the set. -/
theorem outer_loop_subset (cells : List Cell) (l : List Cell)
    (acc : Finset (Nat × Nat × Option Nat)) :
    acc ⊆ l.foldl
      (fun acc cell =>
        if cell.value = none ∨ proj cell ∈ acc then acc
        else
          cells.foldl
            (fun acc2 other =>
              if cell.is_neighbour other ∧ cell.value = other.value then
                insert (proj other) (insert (proj cell) acc2)
              else acc2)
            acc)
      acc := by
  induction l generalizing acc with
  | nil => exact Finset.Subset.refl acc
  | cons c t ih =>
      refine Finset.Subset.trans ?_ (ih _)
      dsimp only
      by_cases hskip : c.value = none ∨ proj c ∈ acc
      · rw [if_pos hskip]
      · rw [if_neg hskip]
        exact inner_loop_subset c cells acc

/-- Everything the outer loop of `invalid_cells` collects is the
projection of a non-blank cell with a conflicting neighbour. -/
theorem outer_loop_sound (cells : List Cell) (l : List Cell) (hl : ∀ c ∈ l, c ∈ cells)
    (acc : Finset (Nat × Nat × Option Nat))
    (hacc : ∀ x ∈ acc, ∃ c ∈ cells, x = proj c ∧ c.value ≠ none ∧
      ∃ o ∈ cells, c.is_neighbour o = true ∧ o.value = c.value)
    (x : Nat × Nat × Option Nat)
    (hx : x ∈ l.foldl
      (fun acc cell =>
        if cell.value = none ∨ proj cell ∈ acc then acc
        else
          cells.foldl
            (fun acc2 other =>
              if cell.is_neighbour other ∧ cell.value = other.value then
                insert (proj other) (insert (proj cell) acc2)
              else acc2)
            acc)
      acc) :
    ∃ c ∈ cells, x = proj c ∧ c.value ≠ none ∧
      ∃ o ∈ cells, c.is_neighbour o = true ∧ o.value = c.value := by
  induction l generalizing acc with
  | nil => exact hacc x hx
  | cons c t ih =>
      refine ih (fun c' hc' => hl c' (List.mem_cons_of_mem _ hc')) _ ?_ hx
      intro y hy
      dsimp only at hy
      by_cases hskip : c.value = none ∨ proj c ∈ acc
      · rw [if_pos hskip] at hy
        exact hacc y hy
      · rw [if_neg hskip] at hy
        push_neg at hskip
        rcases inner_loop_sound c cells acc y hy with h | ⟨o, ho, ⟨hn, hv⟩, rfl | rfl⟩
        · exact hacc y h
        · exact ⟨c, hl c (List.mem_cons_self c t), rfl, hskip.1, o, ho, hn, hv.symm⟩
        · refine ⟨o, ho, rfl, ?_, c, hl c (List.mem_cons_self c t), ?_, hv⟩
          · rw [← hv]
            exact hskip.1
          · rw [is_neighbour_symm o c]
            exact hn

/-- Every non-blank cell of the scanned list that has a conflicting
neighbour ends up in the outer loop's result. -/
theorem outer_loop_complete (cells : List Cell) (l : List Cell)
    (acc : Finset (Nat × Nat × Option Nat)) (c : Cell) (hc : c ∈ l)
    (hval : c.value ≠ none) (o : Cell) (ho : o ∈ cells) (hn : c.is_neighbour o = true)
    (hv : c.value = o.value) :
    proj c ∈ l.foldl
      (fun acc cell =>
        if cell.value = none ∨ proj cell ∈ acc then acc
        else
          cells.foldl
            (fun acc2 other =>
              if cell.is_neighbour other ∧ cell.value = other.value then
                insert (proj other) (insert (proj cell) acc2)
              else acc2)
            acc)
      acc := by
  induction l generalizing acc with
  | nil => cases hc
  | cons c' t ih =>
      rcases List.mem_cons.mp hc with rfl | hmem
      · refine Finset.mem_of_subset (outer_loop_subset cells t _) ?_
        dsimp only
        by_cases hskip : c.value = none ∨ proj c ∈ acc
        · rw [if_pos hskip]
          rcases hskip with h | h
          · exact absurd h hval
          · exact h
        · rw [if_neg hskip]
          exact inner_loop_complete c cells acc o ho hn hv
      · exact ih _ hmem

/-- A list's optional last element is a member. -/
theorem mem_of_getLast?_eq {α : Type} (l : List α) (a : α) (h : l.getLast? = some a) :
    a ∈ l := by
  rcases l with - | ⟨x, xs⟩
  · cases h
  · rw [List.getLast?_eq_getLast_of_ne_nil (by simp)] at h
    injection h with h2
    rw [← h2]
    exact List.getLast_mem _

/-- `Board.move` changes no field but the selection. -/
theorem move_fields (st : EState) (r c : Int) :
    (Board.move st r c).heap = st.heap ∧ (Board.move st r c).grid = st.grid ∧
    (Board.move st r c).solution = st.solution ∧
    (Board.move st r c).history = st.history ∧
    (Board.move st r c).nextId = st.nextId := by
  unfold Board.move
  split
  · exact ⟨rfl, rfl, rfl, rfl, rfl⟩
  · exact ⟨rfl, rfl, rfl, rfl, rfl⟩

/-- Navigation preserves well-formedness. -/
theorem wf_move (st : EState) (r c : Int) (hwf : WF st) : WF (Board.move st r c) := by
  unfold Board.move
  by_cases hco : st.is_completed = true
  · rw [if_pos hco]
    exact hwf
  · rw [if_neg hco]
    obtain ⟨h1, h2, h3, h4, h5, h6, h7, h8⟩ := hwf
    refine ⟨h1, h2, h3, ?_, h5, h6, h7, h8⟩
    have hr1 : 0 ≤ r % 9 := Int.emod_nonneg r (by decide)
    have hr2 : r % 9 < 9 := Int.emod_lt_of_pos r (by decide)
    have hc1 : 0 ≤ c % 9 := Int.emod_nonneg c (by decide)
    have hc2 : c % 9 < 9 := Int.emod_lt_of_pos c (by decide)
    exact ⟨(r % 9).toNat * 9 + (c % 9).toNat, by omega, rfl⟩

/-- In-place mutation of the selected cell by a coordinate-preserving
function, together with a snapshot push, preserves well-formedness. -/
theorem wf_edit (st : EState) (hwf : WF st) (f : Cell → Cell)
    (hrow : ∀ c, (f c).row = c.row) (hcol : ∀ c, (f c).col = c.col) :
    WF { st with
          history := st.history ++ [st.heap st.selected],
          heap := fun j => if j = st.selected then f (st.heap st.selected) else st.heap j } := by
  obtain ⟨h1, h2, h3, h4, h5, h6, h7, h8⟩ := hwf
  have hco : ∀ j,
      ((fun j => if j = st.selected then f (st.heap st.selected) else st.heap j) j).row =
        (st.heap j).row ∧
      ((fun j => if j = st.selected then f (st.heap st.selected) else st.heap j) j).col =
        (st.heap j).col := by
    intro j
    dsimp only
    by_cases hj : j = st.selected
    · subst hj
      rw [if_pos rfl, hrow, hcol]
      exact ⟨rfl, rfl⟩
    · rw [if_neg hj]
      exact ⟨rfl, rfl⟩
  refine ⟨?_, ?_, ?_, h4, h5, h6, h7, h8⟩
  · intro i hi
    rw [(hco (st.grid i)).1, (hco (st.grid i)).2]
    exact h1 i hi
  · intro i hi
    rw [(hco (st.solution i)).1, (hco (st.solution i)).2]
    exact h2 i hi
  · intro c hc
    rcases List.mem_append.mp hc with h | h
    · exact h3 c h
    · rcases List.mem_singleton.mp h with rfl
      obtain ⟨i, hi, hsel⟩ := h4
      rw [hsel, (h1 i hi).1, (h1 i hi).2]
      omega

/-- `Board.set_value` preserves well-formedness. -/
theorem wf_set_value (st : EState) (v : Option Nat) (hwf : WF st) :
    WF (Board.set_value st v) := by
  unfold Board.set_value
  split
  · exact hwf
  · exact wf_edit st hwf (fun cc => cc.set_value v) (fun cc => rfl) (fun cc => rfl)

/-- `Board.toggle_candidate` preserves well-formedness. -/
theorem wf_toggle_candidate (st : EState) (d : Nat) (hwf : WF st) :
    WF (Board.toggle_candidate st d) := by
  unfold Board.toggle_candidate
  split
  · exact hwf
  · exact wf_edit st hwf (fun cc => cc.toggle_candidate d) (fun cc => rfl) (fun cc => rfl)

/-- `Board.undo` preserves well-formedness. -/
theorem wf_undo (st : EState) (hwf : WF st) : WF (Board.undo st) := by
  unfold Board.undo
  split
  · exact hwf
  · cases hlast : st.history.getLast? with
    | none => exact hwf
    | some cell =>
        obtain ⟨h1, h2, h3, h4, h5, h6, h7, h8⟩ := hwf
        have hcell := h3 cell (mem_of_getLast?_eq _ _ hlast)
        have hq81 : cell.row * 9 + cell.col < 81 := by omega
        refine ⟨?_, ?_, ?_, ?_, ?_, ?_, ?_, ?_⟩
        · intro i hi
          dsimp only
          by_cases hiq : i = cell.row * 9 + cell.col
          · subst hiq
            rw [if_pos rfl, if_pos rfl]
            omega
          · rw [if_neg hiq, if_neg (by have := (h5 i hi).1; omega)]
            exact h1 i hi
        · intro i hi
          dsimp only
          rw [if_neg (by have := (h5 i hi).2; omega)]
          exact h2 i hi
        · intro c hc
          exact h3 c (List.dropLast_subset _ hc)
        · refine ⟨cell.row * 9 + cell.col, hq81, ?_⟩
          dsimp only
          rw [if_pos rfl]
        · intro i hi
          dsimp only
          constructor
          · by_cases hiq : i = cell.row * 9 + cell.col
            · rw [if_pos hiq]
              omega
            · rw [if_neg hiq]
              have := (h5 i hi).1
              omega
          · have := (h5 i hi).2
            omega
        · intro i hi j hj hne
          dsimp only
          by_cases hiq : i = cell.row * 9 + cell.col
          · rw [if_pos hiq, if_neg (by omega)]
            have := (h5 j hj).1
            omega
          · by_cases hjq : j = cell.row * 9 + cell.col
            · rw [if_neg hiq, if_pos hjq]
              have := (h5 i hi).1
              omega
            · rw [if_neg hiq, if_neg hjq]
              exact h6 i hi j hj hne
        · exact h7
        · intro i hi
          dsimp only
          by_cases hiq : i = cell.row * 9 + cell.col
          · rw [if_pos hiq]
            right
            intro j hj
            have := (h5 j hj).2
            omega
          · rw [if_neg hiq]
            rcases h8 i hi with h | h
            · exact Or.inl h
            · exact Or.inr h

/-- `Board.hint` preserves well-formedness. -/
theorem wf_hint (st : EState) (hwf : WF st) : WF (Board.hint st) := by
  unfold Board.hint
  split
  · exact hwf
  · obtain ⟨h1, h2, h3, h4, h5, h6, h7, h8⟩ := hwf
    obtain ⟨i0, hi0, hsel⟩ := h4
    have hr : (st.heap st.selected).row = i0 / 9 := by
      rw [hsel]
      exact (h1 i0 hi0).1
    have hc : (st.heap st.selected).col = i0 % 9 := by
      rw [hsel]
      exact (h1 i0 hi0).2
    have hp : (st.heap st.selected).row * 9 + (st.heap st.selected).col = i0 := by
      rw [hr, hc]
      omega
    have hp81 : (st.heap st.selected).row * 9 + (st.heap st.selected).col < 81 := by
      omega
    refine ⟨?_, h2, ?_, ?_, ?_, ?_, h7, ?_⟩
    · intro i hi
      dsimp only
      by_cases hiq : i = (st.heap st.selected).row * 9 + (st.heap st.selected).col
      · subst hiq
        rw [if_pos rfl]
        exact h2 _ hi
      · rw [if_neg hiq]
        exact h1 i hi
    · intro c hc
      exact h3 c (List.mem_of_mem_filter hc)
    · refine ⟨(st.heap st.selected).row * 9 + (st.heap st.selected).col, hp81, ?_⟩
      dsimp only
      rw [if_pos rfl]
    · intro i hi
      dsimp only
      constructor
      · by_cases hiq : i = (st.heap st.selected).row * 9 + (st.heap st.selected).col
        · rw [if_pos hiq]
          exact (h5 _ hp81).2
        · rw [if_neg hiq]
          exact (h5 i hi).1
      · exact (h5 i hi).2
    · intro i hi j hj hne
      dsimp only
      by_cases hiq : i = (st.heap st.selected).row * 9 + (st.heap st.selected).col
      · subst hiq
        rw [if_pos rfl, if_neg (by omega)]
        intro hcontra
        rcases h8 j hj with hal | hno
        · rw [hal] at hcontra
          exact (h7 _ hi j hj (by omega) hcontra).elim
        · exact hno _ hi hcontra.symm
      · by_cases hjq : j = (st.heap st.selected).row * 9 + (st.heap st.selected).col
        · subst hjq
          rw [if_neg hiq, if_pos rfl]
          intro hcontra
          rcases h8 i hi with hal | hno
          · rw [hal] at hcontra
            exact hne (h7 i hi _ hj (by omega) hcontra).elim
          · exact hno _ hj hcontra
        · rw [if_neg hiq, if_neg hjq]
          exact h6 i hi j hj hne
    · intro i hi
      dsimp only
      by_cases hiq : i = (st.heap st.selected).row * 9 + (st.heap st.selected).col
      · subst hiq
        rw [if_pos rfl]
        exact Or.inl rfl
      · rw [if_neg hiq]
        exact h8 i hi

/-- Every `Board` operation preserves well-formedness. -/
theorem wf_applyOp (st : EState) (o : Op) (hwf : WF st) : WF (applyOp st o) := by
  cases o with
  | up => exact wf_move st _ _ hwf
  | down => exact wf_move st _ _ hwf
  | left => exact wf_move st _ _ hwf
  | right => exact wf_move st _ _ hwf
  | mv r c => exact wf_move st r c hwf
  | setv v => exact wf_set_value st v hwf
  | toggle d => exact wf_toggle_candidate st d hwf
  | undo => exact wf_undo st hwf
  | hint => exact wf_hint st hwf

/-- Sequences of `Board` operations preserve well-formedness. -/
theorem wf_run (st : EState) (ops : List Op) (hwf : WF st) : WF (run st ops) := by
  induction ops generalizing st with
  | nil => exact hwf
  | cons o t ih => exact ih _ (wf_applyOp st o hwf)

/-- When the solution grid is fully given, no operation changes the
solution id map or any solution cell's data. -/
theorem sdata_preserved (st : EState) (o : Op) (hwf : WF st)
    (hfix : ∀ i, i < 81 → (sdata st i).is_fixed = true) :
    (applyOp st o).solution = st.solution ∧
    ∀ i, i < 81 → sdata (applyOp st o) i = sdata st i := by
  have hm : ∀ (r c : Int), (Board.move st r c).solution = st.solution ∧
      ∀ i, i < 81 → sdata (Board.move st r c) i = sdata st i := by
    intro r c
    obtain ⟨hh, -, hs, -, -⟩ := move_fields st r c
    refine ⟨hs, ?_⟩
    intro i hi
    unfold sdata
    rw [hh, hs]
  cases o with
  | up =>
      exact hm _ _
  | down =>
      exact hm _ _
  | left =>
      exact hm _ _
  | right =>
      exact hm _ _
  | mv r c =>
      exact hm r c
  | setv v =>
      unfold applyOp Board.set_value
      dsimp only
      by_cases hgd : (st.heap st.selected).is_fixed = true ∨ st.is_completed = true
      · rw [if_pos hgd]
        exact ⟨rfl, fun i hi => rfl⟩
      · rw [if_neg hgd]
        push_neg at hgd
        refine ⟨rfl, ?_⟩
        intro i hi
        unfold sdata
        dsimp only
        rw [if_neg ?_]
        intro heq
        apply hgd.1
        rw [← heq]
        exact hfix i hi
  | toggle d =>
      unfold applyOp Board.toggle_candidate
      dsimp only
      by_cases hgd : (st.heap st.selected).is_fixed = true ∨ st.is_completed = true
      · rw [if_pos hgd]
        exact ⟨rfl, fun i hi => rfl⟩
      · rw [if_neg hgd]
        push_neg at hgd
        refine ⟨rfl, ?_⟩
        intro i hi
        unfold sdata
        dsimp only
        rw [if_neg ?_]
        intro heq
        apply hgd.1
        rw [← heq]
        exact hfix i hi
  | undo =>
      unfold applyOp Board.undo
      dsimp only
      split
      · exact ⟨rfl, fun i hi => rfl⟩
      · cases hlast : st.history.getLast? with
        | none => exact ⟨rfl, fun i hi => rfl⟩
        | some cell =>
            obtain ⟨-, -, -, -, h5, -⟩ := hwf
            refine ⟨rfl, ?_⟩
            intro i hi
            unfold sdata
            dsimp only
            rw [if_neg (by have := (h5 i hi).2; omega)]
  | hint =>
      unfold applyOp Board.hint
      dsimp only
      split
      · exact ⟨rfl, fun i hi => rfl⟩
      · exact ⟨rfl, fun i hi => rfl⟩

/-- When the solution grid is fully given, whole operation sequences
leave the solution id map and every solution cell unchanged. -/
theorem sdata_run (st : EState) (ops : List Op) (hwf : WF st)
    (hfix : ∀ i, i < 81 → (sdata st i).is_fixed = true) :
    (run st ops).solution = st.solution ∧
    ∀ i, i < 81 → sdata (run st ops) i = sdata st i := by
  induction ops generalizing st with
  | nil => exact ⟨rfl, fun i hi => rfl⟩
  | cons o t ih =>
      have h1 := sdata_preserved st o hwf hfix
      have hfix2 : ∀ i, i < 81 → (sdata (applyOp st o) i).is_fixed = true := by
        intro i hi
        rw [h1.2 i hi]
        exact hfix i hi
      have h2 := ih (applyOp st o) (wf_applyOp st o hwf) hfix2
      refine ⟨?_, ?_⟩
      · rw [show run st (o :: t) = run (applyOp st o) t from rfl, h2.1, h1.1]
      · intro i hi
        rw [show run st (o :: t) = run (applyOp st o) t from rfl, h2.2 i hi, h1.2 i hi]

/-- Successful parses carry exactly 81 cells with matching
coordinates. -/
theorem from_str_ok_elim (s : String) (g : List Cell) (h : Grid.from_str s = Except.ok g) :
    parseCells s.toList.enum = Except.ok g ∧ g.length = 81 ∧
    ∀ i, i < 81 → (g.getD i default).row = i / 9 ∧ (g.getD i default).col = i % 9 := by
  unfold Grid.from_str at h
  cases hp : parseCells s.toList.enum with
  | error e =>
      rw [hp] at h
      cases h
  | ok cells =>
      rw [hp] at h
      dsimp only at h
      by_cases hcond : cells.length = 81 ∧
          ∀ p ∈ cells.enum, p.2.row = p.1 / 9 ∧ p.2.col = p.1 % 9
      · rw [if_pos hcond] at h
        injection h with h2
        subst h2
        obtain ⟨-, hpt⟩ := parseCells_get s.toList cells hp
        refine ⟨rfl, hcond.1, ?_⟩
        intro i hi
        obtain ⟨v, -, hcell⟩ := hpt i (by omega)
        rw [hcell]
        exact ⟨rfl, rfl⟩
      · rw [if_neg hcond] at h
        cases h

/-- A successful `Board.start` yields a well-formed state with empty
history whose grid and solution data are the parsed lists. -/
theorem start_elim (pz sol : String) (st : EState) (h : Board.start pz sol = Except.ok st) :
    ∃ g s, Grid.from_str pz = Except.ok g ∧ Grid.from_str sol = Except.ok s ∧
      WF st ∧ st.history = [] ∧
      (∀ i, i < 81 → gdata st i = g.getD i default) ∧
      (∀ i, i < 81 → sdata st i = s.getD i default) := by
  unfold Board.start at h
  cases hpz : Grid.from_str pz with
  | error e =>
      rw [hpz] at h
      cases h
  | ok g =>
      rw [hpz] at h
      dsimp only at h
      cases hsol : Grid.from_str sol with
      | error e =>
          rw [hsol] at h
          cases h
      | ok s =>
          rw [hsol] at h
          dsimp only at h
          injection h with h2
          subst h2
          obtain ⟨-, -, hgc⟩ := from_str_ok_elim pz g hpz
          obtain ⟨-, -, hsc⟩ := from_str_ok_elim sol s hsol
          refine ⟨g, s, rfl, rfl, ⟨?_, ?_, ?_, ?_, ?_, ?_, ?_, ?_⟩, rfl, ?_, ?_⟩
          · intro i hi
            dsimp only
            rw [if_pos hi]
            exact hgc i hi
          · intro i hi
            dsimp only
            rw [if_neg (by omega), if_pos (by omega)]
            have he : i + 81 - 81 = i := by omega
            rw [he]
            exact hsc i hi
          · intro c hc
            cases hc
          · exact ⟨0, by omega, rfl⟩
          · intro i hi
            dsimp only
            omega
          · intro i hi j hj hne
            dsimp only
            omega
          · intro i hi j hj hne
            dsimp only
            omega
          · intro i hi
            right
            intro j hj
            dsimp only
            omega
          · intro i hi
            unfold gdata
            dsimp only
            rw [if_pos hi]
          · intro i hi
            unfold sdata
            dsimp only
            rw [if_neg (by omega), if_pos (by omega)]
            have he : i + 81 - 81 = i := by omega
            rw [he]

/-- Editing a fixed selected cell is a no-op in the `Board` engine. -/
theorem edit_noop_of_fixed (s : EState) (hf : (s.heap s.selected).is_fixed = true)
    (v : Option Nat) (d : Nat) :
    Board.set_value s v = s ∧ Board.toggle_candidate s d = s := by
  unfold Board.set_value Board.toggle_candidate
  simp [hf]

/-- The hinted-slot invariant: once grid slot `p` holds a given cell with
data `D` and no history snapshot carries `p`'s coordinates, every
operation preserves all three facts. -/
theorem k_applyOp (p : Nat) (hp : p < 81) (D : Cell) (st : EState) (o : Op) (hwf : WF st)
    (hk1 : (st.heap (st.grid p)).is_fixed = true)
    (hk2 : st.heap (st.grid p) = D)
    (hk3 : ∀ cc ∈ st.history, ¬(cc.row = p / 9 ∧ cc.col = p % 9)) :
    ((applyOp st o).heap ((applyOp st o).grid p)).is_fixed = true ∧
    (applyOp st o).heap ((applyOp st o).grid p) = D ∧
    ∀ cc ∈ (applyOp st o).history, ¬(cc.row = p / 9 ∧ cc.col = p % 9) := by
  have hm : ∀ (a b : Int),
      ((Board.move st a b).heap ((Board.move st a b).grid p)).is_fixed = true ∧
      (Board.move st a b).heap ((Board.move st a b).grid p) = D ∧
      ∀ cc ∈ (Board.move st a b).history, ¬(cc.row = p / 9 ∧ cc.col = p % 9) := by
    intro a b
    obtain ⟨hh, hg, -, hhist, -⟩ := move_fields st a b
    rw [hh, hg, hhist]
    exact ⟨hk1, hk2, hk3⟩
  have hedit : ∀ (f : Cell → Cell),
      ¬(st.heap st.selected).is_fixed = true →
      (∀ cc ∈ st.history ++ [st.heap st.selected], ¬(cc.row = p / 9 ∧ cc.col = p % 9)) ∧
      st.grid p ≠ st.selected := by
    intro f hnf
    have hne : st.grid p ≠ st.selected := by
      intro h
      apply hnf
      rw [← h]
      exact hk1
    refine ⟨?_, hne⟩
    intro cc hcc
    rcases List.mem_append.mp hcc with h | h
    · exact hk3 cc h
    · rcases List.mem_singleton.mp h with rfl
      rintro ⟨hrow, hcol⟩
      obtain ⟨hss, hb⟩ := sel_slot st hwf
      rw [hrow, hcol] at hss
      have he : p / 9 * 9 + p % 9 = p := by omega
      rw [he] at hss
      apply hnf
      rw [hss]
      exact hk1
  cases o with
  | up => exact hm _ _
  | down => exact hm _ _
  | left => exact hm _ _
  | right => exact hm _ _
  | mv a b => exact hm a b
  | setv v =>
      unfold applyOp Board.set_value
      dsimp only
      by_cases hgd : (st.heap st.selected).is_fixed = true ∨ st.is_completed = true
      · rw [if_pos hgd]
        exact ⟨hk1, hk2, hk3⟩
      · rw [if_neg hgd]
        push_neg at hgd
        obtain ⟨hhist, hne⟩ := hedit (fun cc => cc.set_value v) hgd.1
        refine ⟨?_, ?_, hhist⟩
        · dsimp only
          rw [if_neg hne]
          exact hk1
        · dsimp only
          rw [if_neg hne]
          exact hk2
  | toggle d =>
      unfold applyOp Board.toggle_candidate
      dsimp only
      by_cases hgd : (st.heap st.selected).is_fixed = true ∨ st.is_completed = true
      · rw [if_pos hgd]
        exact ⟨hk1, hk2, hk3⟩
      · rw [if_neg hgd]
        push_neg at hgd
        obtain ⟨hhist, hne⟩ := hedit (fun cc => cc.toggle_candidate d) hgd.1
        refine ⟨?_, ?_, hhist⟩
        · dsimp only
          rw [if_neg hne]
          exact hk1
        · dsimp only
          rw [if_neg hne]
          exact hk2
  | undo =>
      unfold applyOp Board.undo
      dsimp only
      split
      · exact ⟨hk1, hk2, hk3⟩
      · cases hlast : st.history.getLast? with
        | none => exact ⟨hk1, hk2, hk3⟩
        | some cell =>
            obtain ⟨-, -, h3, -, h5, -⟩ := hwf
            have hknot := hk3 cell (mem_of_getLast?_eq _ _ hlast)
            have hcc := h3 cell (mem_of_getLast?_eq _ _ hlast)
            have hqp : ¬(p = cell.row * 9 + cell.col) := by
              intro he
              exact hknot ⟨by omega, by omega⟩
            have hgn : st.grid p ≠ st.nextId := by
              have := (h5 p hp).1
              omega
            refine ⟨?_, ?_, ?_⟩
            · dsimp only
              rw [if_neg hqp, if_neg hgn]
              exact hk1
            · dsimp only
              rw [if_neg hqp, if_neg hgn]
              exact hk2
            · intro cc hcc2
              exact hk3 cc (List.dropLast_subset _ hcc2)
  | hint =>
      unfold applyOp Board.hint
      dsimp only
      by_cases hgd : (st.heap st.selected).is_fixed = true ∨ st.is_completed = true
      · rw [if_pos hgd]
        exact ⟨hk1, hk2, hk3⟩
      · rw [if_neg hgd]
        push_neg at hgd
        have hne : ¬(p = (st.heap st.selected).row * 9 + (st.heap st.selected).col) := by
          intro he
          apply hgd.1
          obtain ⟨hss, -⟩ := sel_slot st hwf
          rw [hss, ← he]
          exact hk1
        refine ⟨?_, ?_, ?_⟩
        · dsimp only
          rw [if_neg hne]
          exact hk1
        · dsimp only
          rw [if_neg hne]
          exact hk2
        · intro cc hcc
          exact hk3 cc (List.mem_of_mem_filter hcc)

/-- The hinted-slot invariant holds along every operation sequence. -/
theorem k_run (p : Nat) (hp : p < 81) (D : Cell) (st : EState) (ops : List Op) (hwf : WF st)
    (hk1 : (st.heap (st.grid p)).is_fixed = true)
    (hk2 : st.heap (st.grid p) = D)
    (hk3 : ∀ cc ∈ st.history, ¬(cc.row = p / 9 ∧ cc.col = p % 9)) :
    ((run st ops).heap ((run st ops).grid p)).is_fixed = true ∧
    (run st ops).heap ((run st ops).grid p) = D ∧
    ∀ cc ∈ (run st ops).history, ¬(cc.row = p / 9 ∧ cc.col = p % 9) := by
  induction ops generalizing st with
  | nil => exact ⟨hk1, hk2, hk3⟩
  | cons o t ih =>
      obtain ⟨hk1a, hk2a, hk3a⟩ := k_applyOp p hp D st o hwf hk1 hk2 hk3
      exact ih (applyOp st o) (wf_applyOp st o hwf) hk1a hk2a hk3a

/-- A non-empty list has a last element. -/
theorem getLast?_isSome_of_ne_nil {α : Type} (l : List α) (h : l ≠ []) :
    ∃ a, l.getLast? = some a := by
  rcases l with - | ⟨x, xs⟩
  · exact absurd rfl h
  · exact ⟨(x :: xs).getLast (by simp), List.getLast?_eq_getLast_of_ne_nil (by simp)⟩

/-- Observably equal states are completed together. -/
theorem completed_congr (s t : EState) (hwfs : WF s) (hwft : WF t) (hsim : ESim s t) :
    s.is_completed = t.is_completed := by
  obtain ⟨hg, hs, -⟩ := hsim
  rw [Bool.eq_iff_iff, is_completed_iff_values s hwfs, is_completed_iff_values t hwft]
  constructor
  · intro h i hi
    rw [← hg i hi, ← hs i hi]
    exact h i hi
  · intro h i hi
    rw [hg i hi, hs i hi]
    exact h i hi

/-- `ESim` is reflexive. -/
theorem ESim_refl (s : EState) : ESim s s :=
  ⟨fun _ _ => rfl, fun _ _ => rfl, rfl⟩

/-- `ESim` is transitive. -/
theorem ESim_trans {a b c : EState} (h1 : ESim a b) (h2 : ESim b c) : ESim a c :=
  ⟨fun i hi => (h1.1 i hi).trans (h2.1 i hi),
   fun i hi => (h1.2.1 i hi).trans (h2.2.1 i hi),
   h1.2.2.trans h2.2.2⟩

/-- Navigation is observably invisible. -/
theorem move_sim (st : EState) (a b : Int) : ESim (Board.move st a b) st := by
  obtain ⟨hh, hg, hs, hhist, -⟩ := move_fields st a b
  refine ⟨?_, ?_, by rw [hhist]⟩
  · intro i hi
    unfold gdata
    rw [hh, hg]
  · intro i hi
    unfold sdata
    rw [hh, hs]

/-- The effect of a proceeding `Board.undo`: the popped snapshot is
installed at its own slot, the solution data is untouched, the last
history entry is dropped. -/
theorem undo_effect (s : EState) (hwf : WF s) (cell : Cell)
    (hlast : s.history.getLast? = some cell) (hne : s.history ≠ [])
    (hnc : s.is_completed = false) :
    (Board.undo s).history = s.history.dropLast ∧
    (∀ i, i < 81 → gdata (Board.undo s) i =
      if i = cell.row * 9 + cell.col then cell else gdata s i) ∧
    (∀ i, i < 81 → sdata (Board.undo s) i = sdata s i) := by
  obtain ⟨-, -, -, -, h5, -⟩ := hwf
  have hguard : ¬(s.history = [] ∨ s.is_completed = true) := by
    rintro (h | h)
    · exact hne h
    · rw [hnc] at h
      cases h
  have hundo : Board.undo s =
      { heap := fun j => if j = s.nextId then cell else s.heap j,
        nextId := s.nextId + 1,
        grid := fun i => if i = cell.row * 9 + cell.col then s.nextId else s.grid i,
        solution := s.solution,
        selected := s.nextId,
        history := s.history.dropLast } := by
    unfold Board.undo
    rw [if_neg hguard, hlast]
  refine ⟨by rw [hundo], ?_, ?_⟩
  · intro i hi
    unfold gdata
    rw [hundo]
    dsimp only
    by_cases hiq : i = cell.row * 9 + cell.col
    · rw [if_pos hiq, if_pos rfl, if_pos hiq]
    · rw [if_neg hiq, if_neg (by have := (h5 i hi).1; omega), if_neg hiq]
  · intro i hi
    unfold sdata
    rw [hundo]
    dsimp only
    rw [if_neg (by have := (h5 i hi).2; omega)]

/-- `Board.undo` maps observably equal states to observably equal
states. -/
theorem undo_sim (s t : EState) (hwfs : WF s) (hwft : WF t) (hsim : ESim s t) :
    ESim (Board.undo s) (Board.undo t) := by
  obtain ⟨hg, hs, hh⟩ := hsim
  by_cases hemp : s.history = []
  · have hempt : t.history = [] := by rw [← hh]; exact hemp
    have e1 : Board.undo s = s := by
      unfold Board.undo
      rw [if_pos (Or.inl hemp)]
    have e2 : Board.undo t = t := by
      unfold Board.undo
      rw [if_pos (Or.inl hempt)]
    rw [e1, e2]
    exact ⟨hg, hs, hh⟩
  · have hct : s.is_completed = t.is_completed := completed_congr s t hwfs hwft ⟨hg, hs, hh⟩
    by_cases hcs : s.is_completed = true
    · have e1 : Board.undo s = s := by
        unfold Board.undo
        rw [if_pos (Or.inr hcs)]
      have e2 : Board.undo t = t := by
        unfold Board.undo
        rw [if_pos (Or.inr (by rw [← hct]; exact hcs))]
      rw [e1, e2]
      exact ⟨hg, hs, hh⟩
    · have hcs2 : s.is_completed = false := by
        cases hb : s.is_completed
        · rfl
        · exact absurd hb hcs
      have hct2 : t.is_completed = false := by
        rw [← hct]
        exact hcs2
      have hempt : t.history ≠ [] := by
        rw [← hh]
        exact hemp
      obtain ⟨cell, hlast⟩ := getLast?_isSome_of_ne_nil s.history hemp
      have hlastt : t.history.getLast? = some cell := by
        rw [← hh]
        exact hlast
      obtain ⟨e1h, e1g, e1s⟩ := undo_effect s hwfs cell hlast hemp hcs2
      obtain ⟨e2h, e2g, e2s⟩ := undo_effect t hwft cell hlastt hempt hct2
      refine ⟨?_, ?_, ?_⟩
      · intro i hi
        rw [e1g i hi, e2g i hi]
        by_cases hiq : i = cell.row * 9 + cell.col
        · rw [if_pos hiq, if_pos hiq]
        · rw [if_neg hiq, if_neg hiq]
          exact hg i hi
      · intro i hi
        rw [e1s i hi, e2s i hi]
        exact hs i hi
      · rw [e1h, e2h, hh]

/-- Iterated `Board.undo` maps observably equal states to observably
equal states. -/
theorem undoIter_sim (k : Nat) (s t : EState) (hwfs : WF s) (hwft : WF t)
    (hsim : ESim s t) : ESim (undoIter k s) (undoIter k t) := by
  induction k generalizing s t with
  | zero => exact hsim
  | succ m ih =>
      exact ih (Board.undo s) (Board.undo t) (wf_undo s hwfs) (wf_undo t hwft)
        (undo_sim s t hwfs hwft hsim)

/-- Undoing right after an in-place edit of the selected cell restores
the observable state (assuming a fully-given solution, so the edit cannot
touch a solution cell). -/
theorem edit_undo_cancel (st : EState) (hwf : WF st) (f : Cell → Cell)
    (hrow : ∀ x, (f x).row = x.row) (hcol : ∀ x, (f x).col = x.col)
    (hsf : ∀ i, i < 81 → (sdata st i).is_fixed = true)
    (hnf : (st.heap st.selected).is_fixed = false)
    (hncE : EState.is_completed { st with
        history := st.history ++ [st.heap st.selected],
        heap := fun j =>
          if j = st.selected then f (st.heap st.selected) else st.heap j } = false) :
    ESim (Board.undo { st with
        history := st.history ++ [st.heap st.selected],
        heap := fun j =>
          if j = st.selected then f (st.heap st.selected) else st.heap j }) st := by
  obtain ⟨hss, hq81⟩ := sel_slot st hwf
  have hwfE := wf_edit st hwf f hrow hcol
  have hlast : ({ st with
      history := st.history ++ [st.heap st.selected],
      heap := fun j =>
        if j = st.selected then f (st.heap st.selected) else st.heap j } :
      EState).history.getLast? = some (st.heap st.selected) := by
    dsimp only
    exact List.getLast?_concat _
  have hne : ({ st with
      history := st.history ++ [st.heap st.selected],
      heap := fun j =>
        if j = st.selected then f (st.heap st.selected) else st.heap j } :
      EState).history ≠ [] := by
    dsimp only
    simp
  have hrowsel : (st.heap st.selected).row * 9 + (st.heap st.selected).col < 81 := hq81
  obtain ⟨hU1, hU2, hU3⟩ := undo_effect _ hwfE _ hlast hne hncE
  refine ⟨?_, ?_, ?_⟩
  · intro i hi
    rw [hU2 i hi]
    by_cases hiq : i = (st.heap st.selected).row * 9 + (st.heap st.selected).col
    · rw [if_pos hiq, hiq]
      unfold gdata
      rw [← hss]
    · rw [if_neg hiq]
      unfold gdata
      dsimp only
      rw [if_neg ?_]
      intro h
      apply hiq
      rw [hss] at h
      by_contra hne2
      exact hwf.2.2.2.2.2.1 i hi _ hrowsel hne2 h
  · intro i hi
    rw [hU3 i hi]
    unfold sdata
    dsimp only
    rw [if_neg ?_]
    intro h
    have hfx := hsf i hi
    unfold sdata at hfx
    rw [h, hnf] at hfx
    cases hfx
  · rw [hU1]
    dsimp only
    exact List.dropLast_concat

/-- Well-formedness along an edit sequence. -/
theorem editseq_wf {st0 : EState} {n : Nat} {st : EState}
    (hseq : EditSeq st0 n st) (hwf0 : WF st0) : WF st := by
  induction hseq with
  | nil => exact hwf0
  | move m s a b hs ih => exact wf_move s a b ih
  | setv m s v hs hnf hnc hnc2 ih => exact wf_set_value s v ih
  | toggle m s d hs hnf hnc hnc2 ih => exact wf_toggle_candidate s d ih

/-- Solution data is unchanged along an edit sequence when the solution
is fully given. -/
theorem editseq_sdata {st0 : EState} {n : Nat} {st : EState}
    (hseq : EditSeq st0 n st) (hwf0 : WF st0)
    (hsf0 : ∀ i, i < 81 → (sdata st0 i).is_fixed = true) :
    ∀ i, i < 81 → sdata st i = sdata st0 i := by
  induction hseq with
  | nil => exact fun i hi => rfl
  | move m s a b hs ih =>
      intro i hi
      have hw : WF s := editseq_wf hs hwf0
      have hfixs : ∀ j, j < 81 → (sdata s j).is_fixed = true := by
        intro j hj
        rw [ih j hj]
        exact hsf0 j hj
      have h2 : sdata (Board.move s a b) i = sdata s i :=
        (sdata_preserved s (Op.mv a b) hw hfixs).2 i hi
      rw [h2, ih i hi]
  | setv m s v hs hnf hnc hnc2 ih =>
      intro i hi
      have hw : WF s := editseq_wf hs hwf0
      have hfixs : ∀ j, j < 81 → (sdata s j).is_fixed = true := by
        intro j hj
        rw [ih j hj]
        exact hsf0 j hj
      have h2 : sdata (Board.set_value s v) i = sdata s i :=
        (sdata_preserved s (Op.setv v) hw hfixs).2 i hi
      rw [h2, ih i hi]
  | toggle m s d hs hnf hnc hnc2 ih =>
      intro i hi
      have hw : WF s := editseq_wf hs hwf0
      have hfixs : ∀ j, j < 81 → (sdata s j).is_fixed = true := by
        intro j hj
        rw [ih j hj]
        exact hsf0 j hj
      have h2 : sdata (Board.toggle_candidate s d) i = sdata s i :=
        (sdata_preserved s (Op.toggle d) hw hfixs).2 i hi
      rw [h2, ih i hi]

/-- Core of the undo-restores claim: N undos bring an N-edit sequence
back to the observable starting state. -/
theorem editseq_undo_restores (st0 : EState) (hwf0 : WF st0)
    (hsf0 : ∀ i, i < 81 → (sdata st0 i).is_fixed = true)
    {n : Nat} {st : EState} (hseq : EditSeq st0 n st) :
    ESim (undoIter n st) st0 := by
  induction hseq with
  | nil => exact ESim_refl st0
  | move m s a b hs ih =>
      have hwfs : WF s := editseq_wf hs hwf0
      have h2 := undoIter_sim m (Board.move s a b) s (wf_move s a b hwfs) hwfs
        (move_sim s a b)
      exact ESim_trans h2 ih
  | setv m s v hs hnf hnc hnc2 ih =>
      have hwfs : WF s := editseq_wf hs hwf0
      have hsfs : ∀ j, j < 81 → (sdata s j).is_fixed = true := by
        intro j hj
        rw [editseq_sdata hs hwf0 hsf0 j hj]
        exact hsf0 j hj
      have hrec : Board.set_value s v = { s with
          history := s.history ++ [s.heap s.selected],
          heap := fun j =>
            if j = s.selected then (s.heap s.selected).set_value v else s.heap j } := by
        unfold Board.set_value
        rw [if_neg (by rw [hnf, hnc]; simp)]
      have hncE : EState.is_completed { s with
          history := s.history ++ [s.heap s.selected],
          heap := fun j =>
            if j = s.selected then (s.heap s.selected).set_value v else s.heap j } = false := by
        rw [← hrec]
        exact hnc2
      have hcancel : ESim (Board.undo (Board.set_value s v)) s := by
        rw [hrec]
        exact edit_undo_cancel s hwfs (fun x => x.set_value v) (fun x => rfl) (fun x => rfl)
          hsfs hnf hncE
      have h2 := undoIter_sim m (Board.undo (Board.set_value s v)) s
        (wf_undo _ (wf_set_value s v hwfs)) hwfs hcancel
      exact ESim_trans h2 ih
  | toggle m s d hs hnf hnc hnc2 ih =>
      have hwfs : WF s := editseq_wf hs hwf0
      have hsfs : ∀ j, j < 81 → (sdata s j).is_fixed = true := by
        intro j hj
        rw [editseq_sdata hs hwf0 hsf0 j hj]
        exact hsf0 j hj
      have hrec : Board.toggle_candidate s d = { s with
          history := s.history ++ [s.heap s.selected],
          heap := fun j =>
            if j = s.selected then (s.heap s.selected).toggle_candidate d
            else s.heap j } := by
        unfold Board.toggle_candidate
        rw [if_neg (by rw [hnf, hnc]; simp)]
      have hncE : EState.is_completed { s with
          history := s.history ++ [s.heap s.selected],
          heap := fun j =>
            if j = s.selected then (s.heap s.selected).toggle_candidate d
            else s.heap j } = false := by
        rw [← hrec]
        exact hnc2
      have hcancel : ESim (Board.undo (Board.toggle_candidate s d)) s := by
        rw [hrec]
        exact edit_undo_cancel s hwfs (fun x => x.toggle_candidate d) (fun x => rfl)
          (fun x => rfl) hsfs hnf hncE
      have h2 := undoIter_sim m (Board.undo (Board.toggle_candidate s d)) s
        (wf_undo _ (wf_toggle_candidate s d hwfs)) hwfs hcancel
      exact ESim_trans h2 ih

/-! ## Claim theorems -/

/-- Claim C7: `Grid.from_str` maps position i to row i / 9 and column
i % 9, turns the character 0 into a blank, not-given cell and a nonzero
digit d into a given cell holding d, and it fails — returning an error
and installing nothing — exactly when the string's length is not 81 or
some character is not a digit. -/
theorem from_str_spec (s : String) :
    (∀ g, Grid.from_str s = Except.ok g →
        s.length = 81 ∧ g.length = 81 ∧
        (∀ i, i < 81 →
          (g.getD i default).row = i / 9 ∧
          (g.getD i default).col = i % 9 ∧
          (g.getD i default).candidates = ∅ ∧
          (s.toList.getD i '0' = '0' →
            (g.getD i default).value = none ∧ (g.getD i default).is_fixed = false) ∧
          (∀ d, pyInt (s.toList.getD i '0') = some d → d ≠ 0 →
            (g.getD i default).value = some d ∧ (g.getD i default).is_fixed = true))) ∧
    ((∃ g, Grid.from_str s = Except.ok g) ↔
      s.length = 81 ∧ ∀ ch ∈ s.toList, ch.isDigit = true) := by
  have hs : s.length = s.toList.length := rfl
  have main : ∀ g, Grid.from_str s = Except.ok g →
      parseCells s.toList.enum = Except.ok g ∧ g.length = 81 := by
    intro g hg
    unfold Grid.from_str at hg
    cases hp : parseCells s.toList.enum with
    | error e =>
        rw [hp] at hg
        cases hg
    | ok cells =>
        rw [hp] at hg
        dsimp only at hg
        by_cases hcond : cells.length = 81 ∧
            ∀ p ∈ cells.enum, p.2.row = p.1 / 9 ∧ p.2.col = p.1 % 9
        · rw [if_pos hcond] at hg
          injection hg with hg'
          subst hg'
          exact ⟨rfl, hcond.1⟩
        · rw [if_neg hcond] at hg
          cases hg
  constructor
  · intro g hg
    obtain ⟨hp, hlen81⟩ := main g hg
    obtain ⟨hlen, hpt⟩ := parseCells_get s.toList g hp
    refine ⟨by rw [hs, hlen]; exact hlen81, hlen81, ?_⟩
    intro i hi
    obtain ⟨v, hpy, hcell⟩ := hpt i (by omega)
    rw [hcell]
    refine ⟨rfl, rfl, rfl, ?_, ?_⟩
    · intro h0
      rw [h0] at hpy
      have : v = 0 := by
        simp [pyInt] at hpy
        omega
      subst this
      exact ⟨rfl, rfl⟩
    · intro d hd hdne
      rw [hpy] at hd
      injection hd with hd'
      subst hd'
      simp [if_neg hdne, hdne]
  · constructor
    · rintro ⟨g, hg⟩
      obtain ⟨hp, hlen81⟩ := main g hg
      obtain ⟨hlen, -⟩ := parseCells_get s.toList g hp
      refine ⟨by rw [hs, hlen]; exact hlen81, ?_⟩
      intro ch hch
      have hall := (parseCells_ok_exists _).mp ⟨g, hp⟩
      obtain ⟨n, rfl⟩ := List.mem_iff_get.mp hch
      have hmem : (n.1, s.toList.get n) ∈ s.toList.enum := by
        have hn : n.1 < s.toList.enum.length := by
          rw [List.enum_length]
          exact n.2
        have hget : s.toList.enum.get ⟨n.1, hn⟩ = (n.1, s.toList.get n) := by
          rw [List.get_enum]
          rfl
        rw [← hget]
        exact List.get_mem _ _ _
      exact hall _ hmem
    · rintro ⟨hlen, hdig⟩
      obtain ⟨cells, hp⟩ := (parseCells_ok_exists _).mpr
        (fun p hp' => hdig p.2 (snd_mem_of_mem_enum hp'))
      obtain ⟨hl, hpt⟩ := parseCells_get s.toList cells hp
      have hc81 : cells.length = 81 := by rw [← hl, ← hs]; exact hlen
      have hcoords : ∀ p ∈ cells.enum, p.2.row = p.1 / 9 ∧ p.2.col = p.1 % 9 := by
        intro p hpmem
        obtain ⟨n, rfl⟩ := List.mem_iff_get.mp hpmem
        simp only [List.get_enum]
        have hn : n.1 < cells.length := by
          have h2 := n.2
          have he : cells.enum.length = cells.length := List.enum_length
          omega
        obtain ⟨v, -, hcell⟩ := hpt n.1 hn
        have hgd : cells.getD n.1 default = cells.get (Fin.cast List.enum_length n) := by
          rw [List.getD_eq_getElem cells default hn]
          rfl
        rw [hgd] at hcell
        rw [hcell]
        exact ⟨rfl, rfl⟩
      refine ⟨cells, ?_⟩
      unfold Grid.from_str
      rw [hp]
      dsimp only
      rw [if_pos ⟨hc81, hcoords⟩]

/-- Witness for C7 at the concrete puzzle string: parsing succeeds,
position 2 (character 4) becomes a given cell holding 4, position 0
(character 0) becomes a blank non-given cell. -/
theorem from_str_spec_witness :
    w7s.length = 81 ∧
    (∃ g, Grid.from_str w7s = Except.ok g) ∧
    (((Grid.from_str w7s).toOption.getD []).getD 2 default).value = some 4 ∧
    (((Grid.from_str w7s).toOption.getD []).getD 2 default).is_fixed = true ∧
    (((Grid.from_str w7s).toOption.getD []).getD 0 default).value = none ∧
    (((Grid.from_str w7s).toOption.getD []).getD 0 default).is_fixed = false := by
  have hok : Grid.from_str w7s = Except.ok ((Grid.from_str w7s).toOption.getD []) := by
    rfl
  have h := (from_str_spec w7s).1 _ hok
  have h2 := h.2.2 2 (by decide)
  have h0 := h.2.2 0 (by decide)
  have hd4 := (h2.2.2.2.2) 4 (by decide) (by decide)
  have hb0 := h0.2.2.2.1 (by decide)
  exact ⟨h.1, ⟨_, hok⟩, hd4.1, hd4.2, hb0.1, hb0.2⟩

/-- Claim C6: `invalid_cells` returns exactly the projections of the
cells that hold a non-blank value and have at least one other,
neighbouring cell with the identical value; blank cells and cells
without a same-valued neighbour never appear. -/
theorem invalid_cells_spec (cells : List Cell) (p : Nat × Nat × Option Nat) :
    p ∈ Grid.invalid_cells cells ↔
      ∃ c ∈ cells, p = proj c ∧ c.value ≠ none ∧
        ∃ o ∈ cells, c.is_neighbour o = true ∧ o.value = c.value := by
  unfold Grid.invalid_cells
  constructor
  · intro hp
    refine outer_loop_sound cells cells (fun c h => h) ∅ ?_ p hp
    intro x hx
    exact absurd hx (Finset.not_mem_empty x)
  · rintro ⟨c, hc, rfl, hval, o, ho, hn, hv⟩
    exact outer_loop_complete cells cells ∅ c hc hval o ho hn (hv.symm)

/-- Witness for C6: in a three-cell list with a row conflict between the
two 5s, the first 5 is reported invalid while the isolated 3 is not. -/
theorem invalid_cells_spec_witness :
    (0, 0, some 5) ∈ Grid.invalid_cells
      [⟨0, 0, some 5, true, ∅⟩, ⟨0, 1, some 5, false, ∅⟩, ⟨8, 8, some 3, false, ∅⟩] ∧
    (8, 8, some 3) ∉ Grid.invalid_cells
      [⟨0, 0, some 5, true, ∅⟩, ⟨0, 1, some 5, false, ∅⟩, ⟨8, 8, some 3, false, ∅⟩] := by
  constructor
  · exact (invalid_cells_spec _ _).mpr
      ⟨⟨0, 0, some 5, true, ∅⟩, by decide, rfl, by decide,
       ⟨0, 1, some 5, false, ∅⟩, by decide, by decide, by decide⟩
  · decide

/-- Claim C2: `hint` on a non-given selected cell of a non-completed
board (with the solution cell given, as in any solved solution) installs
the solution's cell at the selected coordinate — in particular its value —
re-points the selection to the grid entry at that coordinate, and purges
every history snapshot carrying that coordinate; thereafter, along every
operation sequence, the cell at that coordinate stays exactly the
solution cell (so no undo can restore a pre-hint state there), and any
`set_value`/`toggle_candidate` issued while it is selected is a no-op. -/
theorem hint_spec (st : EState) (r c p : Nat) (hwf : WF st)
    (hr : (st.heap st.selected).row = r) (hc : (st.heap st.selected).col = c)
    (hp : p = r * 9 + c)
    (hnf : (st.heap st.selected).is_fixed = false)
    (hnc : st.is_completed = false)
    (hsf : (sdata st p).is_fixed = true) :
    (Board.hint st).heap ((Board.hint st).grid p) = sdata st p ∧
    (Board.hint st).selected = (Board.hint st).grid p ∧
    (Board.hint st).history =
      st.history.filter (fun cc => !(cc.row == r && cc.col == c)) ∧
    (∀ cc ∈ (Board.hint st).history, ¬(cc.row = r ∧ cc.col = c)) ∧
    ∀ ops : List Op,
      (run (Board.hint st) ops).heap ((run (Board.hint st) ops).grid p) = sdata st p ∧
      ((run (Board.hint st) ops).selected = (run (Board.hint st) ops).grid p →
        ∀ v d, Board.set_value (run (Board.hint st) ops) v = run (Board.hint st) ops ∧
          Board.toggle_candidate (run (Board.hint st) ops) d =
            run (Board.hint st) ops) := by
  have hrc9 := sel_coords_lt st hwf
  have hr9 : r < 9 := by
    rw [← hr]
    exact hrc9.1
  have hc9 : c < 9 := by
    rw [← hc]
    exact hrc9.2
  have hp81 : p < 81 := by omega
  have hPe : (st.heap st.selected).row * 9 + (st.heap st.selected).col = p := by
    rw [hr, hc, hp]
  have hguard : ¬((st.heap st.selected).is_fixed = true ∨ st.is_completed = true) := by
    rw [hnf, hnc]
    simp
  have hhint : Board.hint st = { st with
      selected := st.solution p,
      grid := fun i => if i = p then st.solution p else st.grid i,
      history := st.history.filter fun cc => !(cc.row == r && cc.col == c) } := by
    unfold Board.hint
    rw [if_neg hguard, hPe, hr, hc]
  have h1 : (Board.hint st).heap ((Board.hint st).grid p) = sdata st p := by
    rw [hhint]
    dsimp only
    rw [if_pos rfl]
    rfl
  have h4 : ∀ cc ∈ (Board.hint st).history, ¬(cc.row = r ∧ cc.col = c) := by
    intro cc hcc
    rw [hhint] at hcc
    dsimp only at hcc
    rintro ⟨hrow, hcol⟩
    have hpred := List.of_mem_filter hcc
    rw [hrow, hcol] at hpred
    simp at hpred
  refine ⟨h1, ?_, ?_, h4, ?_⟩
  · rw [hhint]
    dsimp only
    rw [if_pos rfl]
  · rw [hhint]
  · intro ops
    have hwf2 : WF (Board.hint st) := wf_hint st hwf
    have hk1 : ((Board.hint st).heap ((Board.hint st).grid p)).is_fixed = true := by
      rw [h1]
      exact hsf
    have hk3 : ∀ cc ∈ (Board.hint st).history, ¬(cc.row = p / 9 ∧ cc.col = p % 9) := by
      intro cc hcc
      have := h4 cc hcc
      have hpd : p / 9 = r := by omega
      have hpm : p % 9 = c := by omega
      rw [hpd, hpm]
      exact this
    obtain ⟨hK1, hK2, -⟩ :=
      k_run p hp81 (sdata st p) (Board.hint st) ops hwf2 hk1 h1 hk3
    refine ⟨hK2, ?_⟩
    intro hsel v d
    refine edit_noop_of_fixed _ ?_ v d
    rw [hsel]
    exact hK1

/-- Witness for C2 at a concrete blank board: hinting cell (0, 0)
installs the solution cell and the slot survives a later edit attempt. -/
theorem hint_spec_witness :
    (Board.hint estPlay).heap ((Board.hint estPlay).grid 0) = sdata estPlay 0 ∧
    (Board.hint estPlay).selected = (Board.hint estPlay).grid 0 ∧
    (run (Board.hint estPlay) [Op.setv (some 7)]).heap
        ((run (Board.hint estPlay) [Op.setv (some 7)]).grid 0) = sdata estPlay 0 := by
  have h := hint_spec estPlay 0 0 0 (WF_mkState _ _ _ _ _ (by decide) (by decide))
    (by decide) (by decide) (by decide) (by decide) (by decide) (by decide)
  exact ⟨h.1, h.2.1, (h.2.2.2.2 [Op.setv (some 7)]).1⟩

/-- Claim C4: after `start` parses the solution string (whose cells are
all given, as any solved solution's are), every sequence of engine
operations — moves, `set_value`, `toggle_candidate`, `undo`, `hint` —
leaves every cell of the solution grid exactly as parsed, even though
`hint` aliases the solution's own cell object into the live grid: edits
aimed at that grid slot are stopped by its given flag before they could
reach the shared object. -/
theorem solution_never_mutated (pz sol : String) (st0 : EState) (s : List Cell)
    (hstart : Board.start pz sol = Except.ok st0)
    (hsol : Grid.from_str sol = Except.ok s)
    (hfix : ∀ i, i < 81 → (s.getD i default).is_fixed = true)
    (ops : List Op) (i : Nat) (hi : i < 81) :
    sdata (run st0 ops) i = s.getD i default := by
  obtain ⟨g, t, hpz, hsol2, hwf, hhist, hgd, hsd⟩ := start_elim pz sol st0 hstart
  rw [hsol] at hsol2
  injection hsol2 with hts
  subst hts
  have hfix0 : ∀ j, j < 81 → (sdata st0 j).is_fixed = true := by
    intro j hj
    rw [hsd j hj]
    exact hfix j hj
  have h := sdata_run st0 ops hwf hfix0
  rw [h.2 i hi, hsd i hi]

/-- Witness for C4: a concrete start, followed by a hint and an edit
aimed at the hinted slot, leaves solution cell 0 as parsed. -/
theorem solution_never_mutated_witness :
    sdata (run ((Board.start w7s w4sol).toOption.getD estPlay)
        [Op.hint, Op.setv (some 9), Op.toggle 3, Op.undo]) 0 =
      ((Grid.from_str w4sol).toOption.getD []).getD 0 default := by
  have hstart : Board.start w7s w4sol =
      Except.ok ((Board.start w7s w4sol).toOption.getD estPlay) := by rfl
  have hsol : Grid.from_str w4sol =
      Except.ok ((Grid.from_str w4sol).toOption.getD []) := by rfl
  exact solution_never_mutated w7s w4sol _ _ hstart hsol (by decide)
    [Op.hint, Op.setv (some 9), Op.toggle 3, Op.undo] 0 (by decide)

/-- Claim C10: toggling the same candidate twice on a blank non-given
cell is the identity on the cell, and one toggle on a cell holding a
value clears the value to blank. -/
theorem toggle_candidate_involution (c : Cell) (d : Nat) (hfix : c.is_fixed = false) :
    (c.value = none → (c.toggle_candidate d).toggle_candidate d = c) ∧
    (∀ v, c.value = some v → (c.toggle_candidate d).value = none) := by
  refine ⟨fun hb => ?_, fun v hv => rfl⟩
  cases c with
  | mk r co cv f cand =>
    cases hb
    by_cases hd : d ∈ cand
    · simp [Cell.toggle_candidate, hd, Finset.not_mem_erase, Finset.insert_erase]
    · simp [Cell.toggle_candidate, hd, Finset.erase_insert]

/-- Witness for C10 at a concrete blank cell with candidate set `{2}` and
a concrete valued cell. -/
theorem toggle_candidate_involution_witness :
    (Cell.toggle_candidate (Cell.toggle_candidate ⟨0, 0, none, false, {2}⟩ 5) 5 =
      ⟨0, 0, none, false, {2}⟩) ∧
    (Cell.toggle_candidate ⟨1, 1, some 4, false, ∅⟩ 5).value = none :=
  ⟨(toggle_candidate_involution ⟨0, 0, none, false, {2}⟩ 5 rfl).1 rfl,
   (toggle_candidate_involution ⟨1, 1, some 4, false, ∅⟩ 5 rfl).2 4 rfl⟩

/-- Claim C1 (amended): in the sudoku `Board` engine, `set_value` and
`toggle_candidate` on a given (fixed) selected cell are silent no-ops —
the whole state, hence the cell and the history, is unchanged. -/
theorem board_edit_given_cell_noop (st : EState) (v : Option Nat) (d : Nat)
    (hfix : (st.heap st.selected).is_fixed = true) :
    Board.set_value st v = st ∧ Board.toggle_candidate st d = st := by
  unfold Board.set_value Board.toggle_candidate
  simp [hfix]

/-- Witness for C1 at a concrete state whose selected cell is given. -/
theorem board_edit_given_cell_noop_witness :
    Board.set_value estFix (some 3) = estFix ∧ Board.toggle_candidate estFix 7 = estFix :=
  board_edit_given_cell_noop estFix (some 3) 7 (by decide)

/-- Counterexample to C1 as stated: in the nandoku `Game` engine
(also cited by the claim), `set_value` on a given selected cell is not a
silent no-op — it appends a snapshot to the history and then fails the
`assert not self.is_fixed` inside `Cell.set_value`. -/
theorem game_edit_given_cell_not_noop :
    (estFix.heap estFix.selected).is_fixed = true ∧
    estFix.history = [] ∧
    (Game.set_value estFix (some 3)).2 = true ∧
    (Game.set_value estFix (some 3)).1.history = [⟨0, 0, some 5, true, ∅⟩] := by
  decide

/-- Claim C9 (amended): in the sudoku `Board` engine, once the puzzle is
completed every `set_value`, `toggle_candidate`, `undo` and `hint` call
is a silent no-op leaving the whole state unchanged. -/
theorem board_completed_freezes_mutation (st : EState) (v : Option Nat) (d : Nat)
    (hc : st.is_completed = true) :
    Board.set_value st v = st ∧ Board.toggle_candidate st d = st ∧
    Board.undo st = st ∧ Board.hint st = st := by
  unfold Board.set_value Board.toggle_candidate Board.undo Board.hint
  simp [hc]

/-- Witness for C9 at a concrete completed state with non-empty
history. -/
theorem board_completed_freezes_mutation_witness :
    Board.set_value estDoneHist none = estDoneHist ∧
    Board.toggle_candidate estDoneHist 4 = estDoneHist ∧
    Board.undo estDoneHist = estDoneHist ∧ Board.hint estDoneHist = estDoneHist :=
  board_completed_freezes_mutation estDoneHist none 4 (by decide)

/-- Counterexample to C9 as stated: in the nandoku `Game` engine (also
cited by the claim), `undo` has no completion guard, so on a completed
board with non-empty history it reverts cell (0, 0) from its solution
value 1 back to the recorded 5. -/
theorem game_undo_reverts_completed :
    EState.is_completed estDoneHist = true ∧
    estDoneHist.history ≠ [] ∧
    (gdata estDoneHist 0).value = some 1 ∧
    (gdata (Game.undo estDoneHist) 0).value = some 5 := by
  decide

/-- Claim C3 (amended): from a well-formed starting state with empty
history and a fully-given solution grid, after exactly N successful
`set_value`/`toggle_candidate` calls on non-given cells (moves allowed in
between, no undo/hint/start, completion never reached), N `undo` calls
restore every one of the 81 cells — value, candidates, position and
given-flag — to the starting state, and the (N+1)-th `undo` is a
no-op. -/
theorem undo_restores (st0 stN : EState) (N : Nat) (hwf : WF st0)
    (hhist : st0.history = [])
    (hsf : ∀ i, i < 81 → (sdata st0 i).is_fixed = true)
    (hseq : EditSeq st0 N stN) :
    (∀ i, i < 81 → gdata (undoIter N stN) i = gdata st0 i) ∧
    Board.undo (undoIter N stN) = undoIter N stN := by
  have h := editseq_undo_restores st0 hwf hsf hseq
  refine ⟨h.1, ?_⟩
  have hE : (undoIter N stN).history = [] := by
    rw [h.2.2, hhist]
  unfold Board.undo
  rw [if_pos (Or.inl hE)]

/-- Witness for C3 (amended): one edit on the blank board, one undo,
cell (0, 0) restored and the second undo a no-op. -/
theorem undo_restores_witness :
    gdata (undoIter 1 (Board.set_value estPlay (some 3))) 0 = gdata estPlay 0 ∧
    Board.undo (undoIter 1 (Board.set_value estPlay (some 3))) =
      undoIter 1 (Board.set_value estPlay (some 3)) := by
  have h := undo_restores estPlay (Board.set_value estPlay (some 3)) 1
    (WF_mkState _ _ _ _ _ (by decide) (by decide)) rfl (by decide)
    (EditSeq.setv estPlay 0 estPlay (some 3) (EditSeq.nil estPlay)
      (by decide) (by decide) (by decide))
  exact ⟨h.1 0 (by decide), h.2⟩

/-- Counterexample to C3 as stated: from a well-formed, non-completed
starting state whose history is already non-empty, the claim with N = 0
demands that the first `undo` be a no-op, but `Board.undo` pops the
pre-existing snapshot and overwrites cell (0, 0). -/
theorem board_extra_undo_not_noop :
    WF estHist ∧
    EState.is_completed estHist = false ∧
    (gdata estHist 0).value = none ∧
    (gdata (Board.undo estHist) 0).value = some 5 := by
  exact ⟨WF_mkState _ _ _ _ _ (by decide) (by decide), by decide, by decide, by decide⟩

/-- Claim C5: `is_completed` holds exactly when, at every one of the 81
coordinates, the grid cell's value equals the solution cell's value;
candidates and given-flags play no part.  It is a function of the current
grids, recomputed at each query. -/
theorem is_completed_iff_grid_matches_solution (st : EState) (hwf : WF st) :
    st.is_completed = true ↔
      ∀ r c, r < 9 → c < 9 → (gdata st (r * 9 + c)).value = (sdata st (r * 9 + c)).value := by
  rw [is_completed_iff_values st hwf]
  constructor
  · intro h r c hr hc
    exact h (r * 9 + c) (by omega)
  · intro h i hi
    have := h (i / 9) (i % 9) (by omega) (by omega)
    rwa [show i / 9 * 9 + i % 9 = i by omega] at this

/-- Witness for C5 at a concrete completed state. -/
theorem is_completed_iff_grid_matches_solution_witness :
    (gdata estDone 17).value = (sdata estDone 17).value := by
  have h := (is_completed_iff_grid_matches_solution estDone
    (WF_mkState _ _ _ _ _ (by decide) (by decide))).mp (by decide)
  simpa using h 1 8 (by decide) (by decide)

/-- Claim C8 (amended): the two cited engines differ.  In the nandoku
`Game` engine each navigation operation is permitted in every state —
including after completion — and moves the selection by exactly one row
or column with wraparound modulo 9 (row 0 moving up lands on row 8 in
the same column, column 0 moving left lands on column 8 in the same
row) while changing nothing else, exactly as the claim states.  In the
sudoku `Board` engine navigation also changes nothing but the selection
and moves it the same way while the puzzle is not completed, but once
the puzzle is completed `Board.move` returns early and the selection is
not re-pointed. -/
theorem board_navigation (st : EState) (hwf : WF st) :
    (∀ a b : Int,
      (Board.move st a b).grid = st.grid ∧ (Board.move st a b).solution = st.solution ∧
      (Board.move st a b).history = st.history ∧ (Board.move st a b).heap = st.heap ∧
      (Board.move st a b).nextId = st.nextId) ∧
    (st.is_completed = false →
      ((st.heap (Board.move_up st).selected).row =
        (if (st.heap st.selected).row = 0 then 8 else (st.heap st.selected).row - 1) ∧
       (st.heap (Board.move_up st).selected).col = (st.heap st.selected).col) ∧
      ((st.heap (Board.move_down st).selected).row =
        (if (st.heap st.selected).row = 8 then 0 else (st.heap st.selected).row + 1) ∧
       (st.heap (Board.move_down st).selected).col = (st.heap st.selected).col) ∧
      ((st.heap (Board.move_left st).selected).row = (st.heap st.selected).row ∧
       (st.heap (Board.move_left st).selected).col =
        (if (st.heap st.selected).col = 0 then 8 else (st.heap st.selected).col - 1)) ∧
      ((st.heap (Board.move_right st).selected).row = (st.heap st.selected).row ∧
       (st.heap (Board.move_right st).selected).col =
        (if (st.heap st.selected).col = 8 then 0 else (st.heap st.selected).col + 1))) ∧
    (st.is_completed = true → ∀ a b : Int, (Board.move st a b).selected = st.selected) ∧
    ((Game.move_up st).grid = st.grid ∧ (Game.move_up st).solution = st.solution ∧
     (Game.move_up st).history = st.history ∧ (Game.move_up st).heap = st.heap ∧
     (Game.move_up st).nextId = st.nextId ∧
     (st.heap (Game.move_up st).selected).row =
       (if (st.heap st.selected).row = 0 then 8 else (st.heap st.selected).row - 1) ∧
     (st.heap (Game.move_up st).selected).col = (st.heap st.selected).col) ∧
    ((Game.move_down st).grid = st.grid ∧ (Game.move_down st).solution = st.solution ∧
     (Game.move_down st).history = st.history ∧ (Game.move_down st).heap = st.heap ∧
     (Game.move_down st).nextId = st.nextId ∧
     (st.heap (Game.move_down st).selected).row =
       (if (st.heap st.selected).row = 8 then 0 else (st.heap st.selected).row + 1) ∧
     (st.heap (Game.move_down st).selected).col = (st.heap st.selected).col) ∧
    ((Game.move_left st).grid = st.grid ∧ (Game.move_left st).solution = st.solution ∧
     (Game.move_left st).history = st.history ∧ (Game.move_left st).heap = st.heap ∧
     (Game.move_left st).nextId = st.nextId ∧
     (st.heap (Game.move_left st).selected).row = (st.heap st.selected).row ∧
     (st.heap (Game.move_left st).selected).col =
       (if (st.heap st.selected).col = 0 then 8 else (st.heap st.selected).col - 1)) ∧
    ((Game.move_right st).grid = st.grid ∧ (Game.move_right st).solution = st.solution ∧
     (Game.move_right st).history = st.history ∧ (Game.move_right st).heap = st.heap ∧
     (Game.move_right st).nextId = st.nextId ∧
     (st.heap (Game.move_right st).selected).row = (st.heap st.selected).row ∧
     (st.heap (Game.move_right st).selected).col =
       (if (st.heap st.selected).col = 8 then 0 else (st.heap st.selected).col + 1)) := by
  obtain ⟨hr9, hc9⟩ := sel_coords_lt st hwf
  refine ⟨?_, ?_, ?_, ?_, ?_, ?_, ?_⟩
  · intro a b
    unfold Board.move
    by_cases hco : st.is_completed = true
    · simp [hco]
    · simp [hco]
  · intro hnc
    have hmove : ∀ a b : Int,
        (Board.move st a b).selected = st.grid ((a % 9).toNat * 9 + (b % 9).toNat) := by
      intro a b
      unfold Board.move
      simp [hnc]
    refine ⟨?_, ?_, ?_, ?_⟩
    · simp only [Board.move_up, hmove]
      rw [emod9_sub_one _ hr9, emod9_self _ hc9]
      exact grid_coords st hwf _ _ (by split <;> omega) hc9
    · simp only [Board.move_down, hmove]
      rw [emod9_add_one _ hr9, emod9_self _ hc9]
      exact grid_coords st hwf _ _ (by split <;> omega) hc9
    · simp only [Board.move_left, hmove]
      rw [emod9_sub_one _ hc9, emod9_self _ hr9]
      exact grid_coords st hwf _ _ hr9 (by split <;> omega)
    · simp only [Board.move_right, hmove]
      rw [emod9_add_one _ hc9, emod9_self _ hr9]
      exact grid_coords st hwf _ _ hr9 (by split <;> omega)
  · intro hco a b
    unfold Board.move
    simp [hco]
  · refine ⟨rfl, rfl, rfl, rfl, rfl, ?_⟩
    unfold Game.move_up
    dsimp only
    rw [emod9_sub_one _ hr9]
    exact grid_coords st hwf _ _ (by split <;> omega) hc9
  · refine ⟨rfl, rfl, rfl, rfl, rfl, ?_⟩
    unfold Game.move_down
    dsimp only
    rw [emod9_add_one _ hr9]
    exact grid_coords st hwf _ _ (by split <;> omega) hc9
  · refine ⟨rfl, rfl, rfl, rfl, rfl, ?_⟩
    unfold Game.move_left
    dsimp only
    rw [emod9_sub_one _ hc9]
    exact grid_coords st hwf _ _ hr9 (by split <;> omega)
  · refine ⟨rfl, rfl, rfl, rfl, rfl, ?_⟩
    unfold Game.move_right
    dsimp only
    rw [emod9_add_one _ hc9]
    exact grid_coords st hwf _ _ hr9 (by split <;> omega)

/-- Witness for C8 (amended): on the non-completed state selected at
(0, 0), `Board` moving up wraps to row 8 and moving left wraps to
column 8 with the history untouched; on the completed state, nandoku
`Game` navigation still moves — up from row 0 wraps to row 8 in the same
column — and changes nothing else. -/
theorem board_navigation_witness :
    ((estPlay.heap (Board.move_up estPlay).selected).row = 8 ∧
     (estPlay.heap (Board.move_up estPlay).selected).col = 0) ∧
    (estPlay.heap (Board.move_left estPlay).selected).col = 8 ∧
    (Board.move (estPlay) 5 5).history = estPlay.history ∧
    EState.is_completed estDone = true ∧
    (estDone.heap (Game.move_up estDone).selected).row = 8 ∧
    (estDone.heap (Game.move_up estDone).selected).col = 0 ∧
    (Game.move_up estDone).history = estDone.history := by
  have h := board_navigation estPlay (WF_mkState _ _ _ _ _ (by decide) (by decide))
  have h2 := h.2.1 (by decide)
  have hr0 : (estPlay.heap estPlay.selected).row = 0 := by decide
  have hc0 : (estPlay.heap estPlay.selected).col = 0 := by decide
  rw [hr0, hc0] at h2
  simp only [if_pos rfl] at h2
  have hD := board_navigation estDone (WF_mkState _ _ _ _ _ (by decide) (by decide))
  have hDup := hD.2.2.2.1
  have hDr0 : (estDone.heap estDone.selected).row = 0 := by decide
  have hDc0 : (estDone.heap estDone.selected).col = 0 := by decide
  rw [hDr0, hDc0] at hDup
  simp only [if_pos rfl] at hDup
  exact ⟨⟨h2.1.1, h2.1.2⟩, h2.2.2.1.2, (h.1 5 5).2.2.1, by decide,
    hDup.2.2.2.2.2.1, hDup.2.2.2.2.2.2, hDup.2.2.1⟩

/-- Counterexample to C8 as stated: in the sudoku `Board` engine,
navigation is not permitted after completion — `move` returns without
re-pointing the selection, so `move_up` from row 0 of a completed board
leaves the selection on row 0 instead of wrapping to row 8. -/
theorem board_move_frozen_after_completion :
    WF estDone ∧
    EState.is_completed estDone = true ∧
    (estDone.heap estDone.selected).row = 0 ∧
    (estDone.heap estDone.selected).col = 0 ∧
    ((Board.move_up estDone).heap (Board.move_up estDone).selected).row = 0 := by
  exact ⟨WF_mkState _ _ _ _ _ (by decide) (by decide), by decide, by decide, by decide, by decide⟩
